import Mathlib

set_option maxRecDepth 8000

/-!
Verification development for the `ng-spring-data-rest` generator
(`src/ng-spring-data-rest.js`).  Strings are modelled as `List Char`;
the JavaScript string and regular-expression operations used by the
generator (`String.match`, `String.replace` with and without the `g`
flag, `String.includes`) are given explicit executable models below,
faithful to the leftmost-match semantics of the JavaScript engine for
the concrete patterns the source builds.
-/

namespace NgSDR

/-- Strings, modelled as lists of characters. -/
abbrev Str := List Char

/-- `matchAt p t i` holds when the pattern `p` occurs literally in the
text `t` starting at index `i` (JS `t.startsWith(p, i)`). -/
def matchAt (p t : Str) (i : Nat) : Bool :=
  decide (i + p.length ≤ t.length) &&
    (List.range p.length).all (fun j => t.getD (i + j) ' ' == p.getD j ' ')

theorem matchAt_iff {p t : Str} {i : Nat} :
    matchAt p t i = true ↔
      i + p.length ≤ t.length ∧
        ∀ j, j < p.length → t.getD (i + j) ' ' = p.getD j ' ' := by
  simp [matchAt, List.all_eq_true, List.mem_range, decide_eq_true_iff]

theorem matchAt_le {p t : Str} {i : Nat} (h : matchAt p t i = true) :
    i + p.length ≤ t.length :=
  (matchAt_iff.mp h).1

/-- Scan indices `i, i+1, …` (at most `fuel` of them) for the first
index satisfying `f`. -/
def findIdx (f : Nat → Bool) : Nat → Nat → Option Nat
  | _, 0 => none
  | i, fuel + 1 => if f i then some i else findIdx f (i + 1) fuel

theorem findIdx_eq_some {f : Nat → Bool} :
    ∀ {fuel i q : Nat}, findIdx f i fuel = some q →
      f q = true ∧ i ≤ q ∧ q < i + fuel ∧ ∀ j, i ≤ j → j < q → f j = false := by
  intro fuel
  induction fuel with
  | zero => intro i q h; simp [findIdx] at h
  | succ n ih =>
    intro i q h
    by_cases hf : f i = true
    · simp [findIdx, hf] at h
      subst h
      exact ⟨hf, Nat.le_refl _, by omega, fun j h1 h2 => by omega⟩
    · simp [findIdx, hf] at h
      obtain ⟨hq, hiq, hlt, hmin⟩ := ih h
      refine ⟨hq, by omega, by omega, fun j h1 h2 => ?_⟩
      rcases Nat.eq_or_lt_of_le h1 with h1 | h1
      · subst h1; simpa using hf
      · exact hmin j h1 h2

theorem findIdx_eq_none {f : Nat → Bool} :
    ∀ {fuel i : Nat}, findIdx f i fuel = none →
      ∀ j, i ≤ j → j < i + fuel → f j = false := by
  intro fuel
  induction fuel with
  | zero => intro i _ j h1 h2; omega
  | succ n ih =>
    intro i h j h1 h2
    by_cases hf : f i = true
    · simp [findIdx, hf] at h
    · simp [findIdx, hf] at h
      rcases Nat.eq_or_lt_of_le h1 with h1 | h1
      · subst h1; simpa using hf
      · exact ih h j h1 (by omega)

/-- JS `t.indexOf(pat)`: index of the leftmost occurrence. -/
def findMatch (pat t : Str) : Option Nat :=
  findIdx (matchAt pat t) 0 (t.length + 1)

theorem findMatch_some {pat t : Str} {q : Nat} (h : findMatch pat t = some q) :
    matchAt pat t q = true ∧ ∀ j, j < q → matchAt pat t j = false := by
  obtain ⟨h1, _, _, h4⟩ := findIdx_eq_some h
  exact ⟨h1, fun j hj => h4 j (Nat.zero_le _) hj⟩

theorem findMatch_none {pat t : Str} (h : findMatch pat t = none) :
    ∀ i, matchAt pat t i = false := by
  intro i
  by_cases hi : i < t.length + 1
  · exact findIdx_eq_none h i (Nat.zero_le _) (by omega)
  · match hm : matchAt pat t i with
    | false => rfl
    | true => exact absurd (matchAt_le hm) (by omega)

theorem findMatch_eq_some_of {pat t : Str} {q : Nat}
    (hq : matchAt pat t q = true)
    (hmin : ∀ j, j < q → matchAt pat t j = false) :
    findMatch pat t = some q := by
  match hm : findMatch pat t with
  | some r =>
    obtain ⟨h1, h4⟩ := findMatch_some hm
    have : q = r := by
      rcases Nat.lt_trichotomy q r with h | h | h
      · exact absurd hq (by simp [h4 q h])
      · exact h
      · exact absurd h1 (by simp [hmin r h])
    rw [this]
  | none => exact absurd hq (by simp [findMatch_none hm q])

/-- JS `t.includes(p)`. -/
def includes (t p : Str) : Bool := (findMatch p t).isSome

theorem includes_iff {t p : Str} :
    includes t p = true ↔ ∃ i, matchAt p t i = true := by
  constructor
  · intro h
    match hm : findMatch p t with
    | some q => exact ⟨q, (findMatch_some hm).1⟩
    | none => simp [includes, hm] at h
  · rintro ⟨i, hi⟩
    match hm : findMatch p t with
    | some q => simp [includes, hm]
    | none => exact absurd (findMatch_none hm i) (by simp [hi])

theorem includes_eq_false_iff {t p : Str} :
    includes t p = false ↔ ∀ i, matchAt p t i = false := by
  constructor
  · intro h i
    match hm : matchAt p t i with
    | false => rfl
    | true =>
      exact absurd (includes_iff.mpr ⟨i, hm⟩) (by simp [h])
  · intro h
    match hv : includes t p with
    | false => rfl
    | true =>
      obtain ⟨i, hi⟩ := includes_iff.mp hv
      exact absurd hi (by simp [h i])

/-- JS `t.replace(pat, repl)` for a plain-string pattern: replace the
leftmost occurrence only, return `t` unchanged when there is none. -/
def replaceFirst (t pat repl : Str) : Str :=
  match findMatch pat t with
  | none => t
  | some i => t.take i ++ repl ++ t.drop (i + pat.length)

/-- Fuel-driven body of `replaceAll`; the fuel only bounds the number
of replacements and is irrelevant as soon as it covers the text
length. -/
def replaceAllGo : Nat → Str → Str → Str → Str
  | fuel, t, pat, repl =>
    if pat.length = 0 then t
    else
      match findMatch pat t with
      | none => t
      | some i =>
        match fuel with
        | 0 => t
        | f + 1 =>
          t.take i ++ repl ++ replaceAllGo f (t.drop (i + pat.length)) pat repl

/-- JS `t.replace(re, repl)` with a `g`-flag regular expression whose
body is an escaped literal: replace every (non-overlapping, left to
right) occurrence. -/
def replaceAll (t pat repl : Str) : Str := replaceAllGo t.length t pat repl

theorem replaceAllGo_irrel :
    ∀ (f1 : Nat) {u : Nat} {t : Str} (pat repl : Str),
      t.length ≤ f1 → t.length ≤ u →
      replaceAllGo f1 t pat repl = replaceAllGo u t pat repl := by
  intro f1
  induction f1 with
  | zero =>
    intro u t pat repl h1 h2
    rw [replaceAllGo, replaceAllGo]
    by_cases hp : pat.length = 0
    · rw [if_pos hp, if_pos hp]
    · rw [if_neg hp, if_neg hp]
      match hm : findMatch pat t with
      | none => rfl
      | some i =>
        exfalso
        have := matchAt_le (findMatch_some hm).1
        omega
  | succ f ih =>
    intro u t pat repl h1 h2
    rw [replaceAllGo, replaceAllGo]
    by_cases hp : pat.length = 0
    · rw [if_pos hp, if_pos hp]
    · rw [if_neg hp, if_neg hp]
      match hm : findMatch pat t with
      | none => rfl
      | some i =>
        have hle := matchAt_le (findMatch_some hm).1
        match u with
        | 0 => omega
        | g + 1 =>
          have hrec := ih (t := t.drop (i + pat.length)) pat repl
            (by simp only [List.length_drop]; omega)
            (u := g) (by simp only [List.length_drop]; omega)
          dsimp only
          rw [hrec]

theorem replaceAll_no_match {t pat repl : Str}
    (h : includes t pat = false) : replaceAll t pat repl = t := by
  match hm : findMatch pat t with
  | some i => simp [includes, hm] at h
  | none =>
    rw [replaceAll, replaceAllGo]
    split
    · rfl
    · split
      · rfl
      · next i heq => rw [hm] at heq; exact absurd heq (by simp)

theorem replaceAll_of_findMatch {t pat repl : Str} {i : Nat}
    (hp : pat.length ≠ 0) (hm : findMatch pat t = some i) :
    replaceAll t pat repl =
      t.take i ++ repl ++ replaceAll (t.drop (i + pat.length)) pat repl := by
  have hle := matchAt_le (findMatch_some hm).1
  rw [replaceAll, replaceAllGo, if_neg hp, hm]
  dsimp only
  match hn : t.length with
  | 0 => omega
  | n + 1 =>
    dsimp only
    have hgo : replaceAllGo n (t.drop (i + pat.length)) pat repl =
        replaceAll (t.drop (i + pat.length)) pat repl := by
      rw [replaceAll]
      exact replaceAllGo_irrel n pat repl
        (by simp only [List.length_drop]; omega)
        (by simp only [List.length_drop]; omega)
    rw [hgo]

/-- Number of indices of `t` at which `p` occurs (occurrences may
overlap; used to state the exactly-once import property). -/
def countOcc (p t : Str) : Nat :=
  ((Finset.range (t.length + 1)).filter (fun i => matchAt p t i = true)).card

theorem countOcc_eq_zero_iff {p t : Str} :
    countOcc p t = 0 ↔ ∀ i, matchAt p t i = false := by
  constructor
  · intro h i
    match hm : matchAt p t i with
    | false => rfl
    | true =>
      have hmem : i ∈ (Finset.range (t.length + 1)).filter
          (fun i => matchAt p t i = true) := by
        simp [Finset.mem_filter, Finset.mem_range, hm]
        have := matchAt_le hm; omega
      have : 0 < countOcc p t := Finset.card_pos.mpr ⟨i, hmem⟩
      omega
  · intro h
    have hfil : (Finset.range (t.length + 1)).filter
        (fun i => matchAt p t i = true) = ∅ :=
      Finset.filter_eq_empty_iff.mpr (fun i _ => by simp [h i])
    simp [countOcc, hfil]

theorem countOcc_eq_one_of_unique {p t : Str} {m : Nat}
    (hm : matchAt p t m = true)
    (huniq : ∀ q, matchAt p t q = true → q = m) :
    countOcc p t = 1 := by
  have hfil : (Finset.range (t.length + 1)).filter
      (fun i => matchAt p t i = true) = {m} := by
    apply Finset.ext
    intro i
    simp only [Finset.mem_filter, Finset.mem_range, Finset.mem_singleton]
    constructor
    · rintro ⟨_, h2⟩; exact huniq i h2
    · rintro rfl
      exact ⟨by have := matchAt_le hm; omega, hm⟩
  simp [countOcc, hfil]

theorem matchAt_of_countOcc_one {p t : Str} {i j : Nat}
    (h : countOcc p t = 1)
    (hi : matchAt p t i = true) (hj : matchAt p t j = true) : i = j := by
  by_contra hne
  have hmemi : i ∈ (Finset.range (t.length + 1)).filter
      (fun k => matchAt p t k = true) := by
    simp [Finset.mem_filter, Finset.mem_range, hi]
    have := matchAt_le hi; omega
  have hmemj : j ∈ (Finset.range (t.length + 1)).filter
      (fun k => matchAt p t k = true) := by
    simp [Finset.mem_filter, Finset.mem_range, hj]
    have := matchAt_le hj; omega
  have : 2 ≤ countOcc p t := by
    have hsub : ({i, j} : Finset Nat) ⊆
        (Finset.range (t.length + 1)).filter (fun k => matchAt p t k = true) := by
      intro x hx
      rcases Finset.mem_insert.mp hx with rfl | hx
      · exact hmemi
      · rcases Finset.mem_singleton.mp hx with rfl
        exact hmemj
    calc 2 = ({i, j} : Finset Nat).card := by
              rw [Finset.card_insert_of_not_mem (by simpa using hne)]; simp
         _ ≤ _ := Finset.card_le_card hsub
  omega

theorem countOcc_pos_of_matchAt {p t : Str} {i : Nat}
    (hi : matchAt p t i = true) : 1 ≤ countOcc p t := by
  match h : countOcc p t with
  | 0 => exact absurd (countOcc_eq_zero_iff.mp h i) (by simp [hi])
  | n + 1 => omega

theorem matchAt_self (p z : Str) : matchAt p (p ++ z) 0 = true := by
  rw [matchAt_iff]
  refine ⟨by simp only [List.length_append]; omega, fun j hj => ?_⟩
  rw [Nat.zero_add, List.getD_append _ _ _ _ hj]

/-- An occurrence inside the left part of an append is an occurrence of
the append, and conversely. -/
theorem matchAt_append_left {p x : Str} (y : Str) {i : Nat}
    (hb : i + p.length ≤ x.length) :
    matchAt p (x ++ y) i = matchAt p x i := by
  rcases hm : matchAt p x i with _ | _
  · rcases hm2 : matchAt p (x ++ y) i with _ | _
    · rfl
    · exfalso
      rw [matchAt_iff] at hm2
      have : matchAt p x i = true := by
        rw [matchAt_iff]
        refine ⟨hb, fun j hj => ?_⟩
        rw [← hm2.2 j hj, List.getD_append _ _ _ _ (by omega)]
      simp [this] at hm
  · rw [matchAt_iff] at hm ⊢
    refine ⟨by simp only [List.length_append]; omega, fun j hj => ?_⟩
    rw [List.getD_append _ _ _ _ (by omega)]
    exact hm.2 j hj

/-- An occurrence in the right part of an append, shifted by the length
of the left part. -/
theorem matchAt_append_right (p x y : Str) (j : Nat) :
    matchAt p (x ++ y) (x.length + j) = matchAt p y j := by
  rcases hm : matchAt p y j with _ | _
  · rcases hm2 : matchAt p (x ++ y) (x.length + j) with _ | _
    · rfl
    · exfalso
      rw [matchAt_iff] at hm2
      have : matchAt p y j = true := by
        rw [matchAt_iff]
        refine ⟨by have := hm2.1; simp at this; omega, fun k hk => ?_⟩
        have := hm2.2 k hk
        rw [List.getD_append_right _ _ _ _ (by omega)] at this
        have harith : x.length + j + k - x.length = j + k := by omega
        rwa [harith] at this
      simp [this] at hm
  · rw [matchAt_iff] at hm ⊢
    refine ⟨by simp only [List.length_append]; omega, fun k hk => ?_⟩
    rw [List.getD_append_right _ _ _ _ (by omega)]
    have : x.length + j + k - x.length = j + k := by omega
    rw [this]
    exact hm.2 k hk

theorem matchAt_decompose {p t : Str} {i : Nat} (h : matchAt p t i = true) :
    t = t.take i ++ p ++ t.drop (i + p.length) := by
  rw [matchAt_iff] at h
  have htk : (t.drop i).take p.length = p := by
    apply List.ext_getElem
    · simp only [List.length_take, List.length_drop]; omega
    · intro k hk1 hk2
      have hkp : k < p.length := by
        simp only [List.length_take, List.length_drop] at hk1; omega
      have hgd : t.getD (i + k) ' ' = p.getD k ' ' := h.2 k hkp
      rw [List.getD_eq_getElem _ _ (by omega), List.getD_eq_getElem _ _ hkp] at hgd
      rw [List.getElem_take, List.getElem_drop]
      exact hgd
  have hsplit : t.drop i = p ++ t.drop (i + p.length) := by
    conv_lhs => rw [← List.take_append_drop p.length (t.drop i)]
    rw [htk, List.drop_drop]
  calc t = t.take i ++ t.drop i := (List.take_append_drop i t).symm
    _ = t.take i ++ (p ++ t.drop (i + p.length)) := by rw [hsplit]
    _ = t.take i ++ p ++ t.drop (i + p.length) := by rw [List.append_assoc]

theorem replaceFirst_no_match {t pat repl : Str}
    (h : includes t pat = false) : replaceFirst t pat repl = t := by
  match hm : findMatch pat t with
  | some i => simp [includes, hm] at h
  | none => simp [replaceFirst, hm]

theorem getD_mem_of_lt {l : Str} {n : Nat} {d : Char} (h : n < l.length) :
    l.getD n d ∈ l := by
  rw [List.getD_eq_getElem _ _ h]; exact List.getElem_mem h

/-- Inserting a pattern that ends in `';'` (its unique `';'`), contains
no newline, and occurs nowhere in the original text, directly after a
newline, yields a text in which it occurs exactly once. -/
theorem countOcc_insert_one (x base y p : Str)
    (hlen : 1 ≤ p.length)
    (hnl : '\n' ∉ p)
    (hsemi : ';' ∉ p.dropLast)
    (hlast : p.getD (p.length - 1) ' ' = ';')
    (hzero : ∀ i, matchAt p (x ++ base ++ y) i = false) :
    countOcc p (x ++ (base ++ '\n' :: p) ++ y) = 1 := by
  have hR : x ++ (base ++ '\n' :: p) ++ y = (x ++ base) ++ '\n' :: (p ++ y) := by
    simp [List.append_assoc]
  rw [hR]
  set A : Str := x ++ base with hA
  set R : Str := A ++ '\n' :: (p ++ y) with hRdef
  set L : Nat := p.length with hL
  have hR2 : R = (A ++ ['\n']) ++ (p ++ y) := by simp [hRdef]
  have hR3 : R = ((A ++ ['\n']) ++ p) ++ y := by simp [hRdef]
  have hRlen : R.length = A.length + 1 + L + y.length := by
    simp [hRdef]; omega
  set m : Nat := A.length + 1 with hm
  have hAn : (A ++ ['\n']).length = A.length + 1 := by simp
  -- the inserted copy is an occurrence
  have hmatch : matchAt p R m = true := by
    have hmeq : m = (A ++ ['\n']).length + 0 := by rw [hAn]
    rw [hR2, hmeq, matchAt_append_right]
    exact matchAt_self p y
  -- any occurrence is the inserted copy
  have huniq : ∀ q, matchAt p R q = true → q = m := by
    intro q hq
    have hqi := matchAt_iff.mp hq
    have hbound : q + L ≤ R.length := hqi.1
    by_cases h1 : q + L ≤ A.length
    · -- occurrence inside the original left part
      exfalso
      have hqA : matchAt p A q = true := by
        rw [← matchAt_append_left ('\n' :: (p ++ y)) h1, ← hRdef]
        exact hq
      have : matchAt p (A ++ y) q = true := by
        rw [matchAt_append_left y h1]
        exact hqA
      exact absurd this (by simp [hzero q])
    · by_cases h2 : q ≤ A.length
      · -- occurrence would cover the inserted newline
        exfalso
        have hj0 : A.length - q < L := by omega
        have := hqi.2 (A.length - q) hj0
        have hq0 : q + (A.length - q) = A.length := by omega
        rw [hq0] at this
        have hnlR : R.getD A.length ' ' = '\n' := by
          rw [hRdef, List.getD_append_right _ _ _ _ (Nat.le_refl _)]
          simp
        rw [hnlR] at this
        exact hnl (this ▸ getD_mem_of_lt (by omega))
      · by_cases h3 : q < m
        · omega
        · by_cases h4 : q = m
          · exact h4
          · by_cases h5 : q < m + L
            · -- occurrence would cover the final ';' of the copy mid-pattern
              exfalso
              have hj1 : m + L - 1 - q < L := by omega
              have := hqi.2 (m + L - 1 - q) hj1
              have hq1 : q + (m + L - 1 - q) = m + (L - 1) := by omega
              rw [hq1] at this
              have hsemiR : R.getD (m + (L - 1)) ' ' = ';' := by
                rw [hR2, List.getD_append_right _ _ _ _ (by rw [hAn]; omega)]
                have harith : m + (L - 1) - (A ++ ['\n']).length = L - 1 := by
                  rw [hAn]; omega
                rw [harith, List.getD_append _ _ _ _ (by omega)]
                exact hlast
              rw [hsemiR] at this
              have hj1b : m + L - 1 - q < p.dropLast.length := by
                rw [List.length_dropLast]; omega
              have hpd : p.dropLast.getD (m + L - 1 - q) ' ' = ';' := by
                rw [List.getD_eq_getElem _ _ hj1b, List.getElem_dropLast,
                  ← List.getD_eq_getElem _ _
                    (show m + L - 1 - q < p.length by omega)]
                exact this.symm
              exact hsemi (hpd ▸ getD_mem_of_lt hj1b)
            · -- occurrence inside the original right part
              exfalso
              have hk : q = ((A ++ ['\n']) ++ p).length + (q - m - L) := by
                simp [hm]; omega
              have hyk : matchAt p y (q - m - L) = true := by
                rw [← matchAt_append_right p ((A ++ ['\n']) ++ p) y
                  (q - m - L), ← hR3, ← hk]
                exact hq
              have : matchAt p (A ++ y) (A.length + (q - m - L)) = true := by
                rw [matchAt_append_right]
                exact hyk
              exact absurd this (by simp [hzero (A.length + (q - m - L))])
  exact countOcc_eq_one_of_unique hmatch huniq

/-! ### Model of the external lodash helpers

`upperCamelCase` in the source calls `_.camelCase`; the import path
uses `_.kebabCase`.  Both are modelled here for ASCII input: split the
string into words (runs of alphanumeric characters, further split at
lower→upper, upper-run→capitalised-word and letter↔digit boundaries,
as lodash `words` does for ASCII input without ordinal suffixes), then
recombine.  JS `toLowerCase`/`toUpperCase` on ASCII are modelled by
explicit letter tables. -/

def isUpperC (c : Char) : Bool := 'A' ≤ c && c ≤ 'Z'

def isLowerC (c : Char) : Bool := 'a' ≤ c && c ≤ 'z'

def isDigitC (c : Char) : Bool := '0' ≤ c && c ≤ '9'

/-- ASCII alphanumeric: the characters lodash keeps inside a word. -/
def isAl (c : Char) : Bool := isUpperC c || isLowerC c || isDigitC c

/-- `\w` of JavaScript regular expressions (ASCII). -/
def wordC (c : Char) : Bool := isAl c || c == '_'

theorem isAl_ne_of {c d : Char} (h : isAl c = true) (h2 : isAl d = false) :
    c ≠ d := by
  intro he; rw [he, h2] at h; exact Bool.false_ne_true h

def lowerTable : List (Char × Char) :=
  [('A', 'a'), ('B', 'b'), ('C', 'c'), ('D', 'd'), ('E', 'e'), ('F', 'f'),
   ('G', 'g'), ('H', 'h'), ('I', 'i'), ('J', 'j'), ('K', 'k'), ('L', 'l'),
   ('M', 'm'), ('N', 'n'), ('O', 'o'), ('P', 'p'), ('Q', 'q'), ('R', 'r'),
   ('S', 's'), ('T', 't'), ('U', 'u'), ('V', 'v'), ('W', 'w'), ('X', 'x'),
   ('Y', 'y'), ('Z', 'z')]

def upperTable : List (Char × Char) := lowerTable.map (fun q => (q.2, q.1))

/-- JS `toLowerCase` restricted to one ASCII character. -/
def lowerC (c : Char) : Char := (lowerTable.lookup c).getD c

/-- JS `toUpperCase` restricted to one ASCII character. -/
def upperC (c : Char) : Char := (upperTable.lookup c).getD c

theorem lookup_mem_values {tbl : List (Char × Char)} {c v : Char}
    (h : tbl.lookup c = some v) : v ∈ tbl.map Prod.snd := by
  induction tbl with
  | nil => simp [List.lookup] at h
  | cons q rest ih =>
    match q with
    | (k, b) =>
      cases hcq : (c == k)
      · simp only [List.lookup, hcq] at h
        simp only [List.map_cons, List.mem_cons]
        exact Or.inr (ih h)
      · simp only [List.lookup, hcq, Option.some.injEq] at h
        subst h
        simp

theorem isAl_lowerC {c : Char} (h : isAl c = true) : isAl (lowerC c) = true := by
  unfold lowerC
  match hl : lowerTable.lookup c with
  | none => simpa using h
  | some v =>
    have hv := lookup_mem_values hl
    have hall : (lowerTable.map Prod.snd).all isAl = true := by decide
    simpa using List.all_eq_true.mp hall _ hv

theorem isAl_upperC {c : Char} (h : isAl c = true) : isAl (upperC c) = true := by
  unfold upperC
  match hl : upperTable.lookup c with
  | none => simpa using h
  | some v =>
    have hv := lookup_mem_values hl
    have hall : (upperTable.map Prod.snd).all isAl = true := by decide
    simpa using List.all_eq_true.mp hall _ hv

/-- Split into maximal runs of alphanumeric characters, discarding the
separators (lodash `words`, first stage). -/
def splitRunsAux (cur : Str) : Str → List Str
  | [] => if cur.isEmpty then [] else [cur.reverse]
  | c :: cs =>
    if isAl c then splitRunsAux (c :: cur) cs
    else (if cur.isEmpty then [] else [cur.reverse]) ++ splitRunsAux [] cs

def splitRuns (s : Str) : List Str := splitRunsAux [] s

/-- Take a maximal uppercase run, stopping before an uppercase letter
that begins a capitalised word. -/
def takeUppers (acc : Str) : Str → Str × Str
  | [] => (acc.reverse, [])
  | d :: ds =>
    if isUpperC d then
      match ds with
      | [] => ((d :: acc).reverse, [])
      | e :: _ =>
        if isLowerC e then (acc.reverse, d :: ds)
        else takeUppers (d :: acc) ds
    else (acc.reverse, d :: ds)

/-- Take the first camel-case word of an alphanumeric run. -/
def takeWord : Str → Str × Str
  | [] => ([], [])
  | c :: cs =>
    if isDigitC c then (c :: cs.takeWhile isDigitC, cs.dropWhile isDigitC)
    else if isLowerC c then (c :: cs.takeWhile isLowerC, cs.dropWhile isLowerC)
    else
      match cs with
      | [] => ([c], [])
      | d :: ds =>
        if isLowerC d then
          (c :: d :: ds.takeWhile isLowerC, ds.dropWhile isLowerC)
        else if isUpperC d then takeUppers [c] (d :: ds)
        else ([c], cs)

theorem takeUppers_snd_le (acc : Str) :
    ∀ s : Str, (takeUppers acc s).2.length ≤ s.length := by
  intro s
  induction s generalizing acc with
  | nil => simp [takeUppers]
  | cons d ds ih =>
    simp only [takeUppers]
    by_cases hu : isUpperC d
    · simp only [hu, if_true]
      match ds with
      | [] => simp
      | e :: es =>
        by_cases hl : isLowerC e
        · simp [hl]
        · simp only [hl, if_false]
          calc (takeUppers (d :: acc) (e :: es)).2.length
              ≤ (e :: es).length := ih (d :: acc)
            _ ≤ (d :: e :: es).length := by simp
    · simp [hu]

theorem dropWhile_length_le (p : Char → Bool) (l : Str) :
    (l.dropWhile p).length ≤ l.length :=
  (List.dropWhile_sublist _).length_le

theorem takeWord_snd_lt (s : Str) (h : s ≠ []) :
    (takeWord s).2.length < s.length := by
  match s with
  | [] => exact absurd rfl h
  | c :: cs =>
    simp only [takeWord]
    by_cases h1 : isDigitC c
    · simp only [h1, if_true]
      have := dropWhile_length_le isDigitC cs
      simp [List.length_cons]
      omega
    · by_cases h2 : isLowerC c
      · simp only [h1, if_false, h2, if_true]
        have := dropWhile_length_le isLowerC cs
        simp [List.length_cons]
        omega
      · simp only [h1, if_false, h2]
        match cs with
        | [] => simp
        | d :: ds =>
          by_cases h3 : isLowerC d
          · simp only [h3, if_true]
            have := dropWhile_length_le isLowerC ds
            simp [List.length_cons]
            omega
          · by_cases h4 : isUpperC d
            · simp only [h3, if_false, h4, if_true]
              have h5 := takeUppers_snd_le [c] (d :: ds)
              simp [List.length_cons] at h5 ⊢
              omega
            · simp [h3, h4]

/-- Fuel-driven body of `splitCamel`; the fuel is irrelevant as soon
as it covers the length of the run. -/
def splitCamelGo : Nat → Str → List Str
  | _, [] => []
  | 0, _ :: _ => []
  | fuel + 1, c :: cs =>
    (takeWord (c :: cs)).1 :: splitCamelGo fuel (takeWord (c :: cs)).2

/-- Split an alphanumeric run at camel-case boundaries (lodash `words`,
second stage). -/
def splitCamel (s : Str) : List Str := splitCamelGo s.length s

theorem splitCamelGo_irrel :
    ∀ (f1 : Nat) {u : Nat} {s : Str}, s.length ≤ f1 → s.length ≤ u →
      splitCamelGo f1 s = splitCamelGo u s := by
  intro f1
  induction f1 with
  | zero =>
    intro u s h1 h2
    match s with
    | [] => cases u <;> rfl
    | c :: cs => simp at h1
  | succ f ih =>
    intro u s h1 h2
    match s with
    | [] => cases u <;> rfl
    | c :: cs =>
      have hlt := takeWord_snd_lt (c :: cs) (by simp)
      simp only [List.length_cons] at h1 h2 hlt
      match u with
      | 0 => omega
      | g + 1 =>
        rw [splitCamelGo, splitCamelGo]
        have := ih (u := g) (s := (takeWord (c :: cs)).2)
          (by omega) (by omega)
        rw [this]

theorem splitCamel_cons (c : Char) (cs : Str) :
    splitCamel (c :: cs) =
      (takeWord (c :: cs)).1 :: splitCamel (takeWord (c :: cs)).2 := by
  have hlt := takeWord_snd_lt (c :: cs) (by simp)
  simp only [List.length_cons] at hlt
  rw [splitCamel, splitCamel]
  rw [show (c :: cs).length = cs.length + 1 from by simp, splitCamelGo]
  congr 1
  exact splitCamelGo_irrel cs.length (by omega) (Nat.le_refl _)

/-- lodash `words` for ASCII input. -/
def lwords (s : Str) : List Str := (splitRuns s).flatMap splitCamel

/-- JS `s.charAt(0).toUpperCase() + s.substr(1)` (also lodash
`upperFirst`). -/
def upperFirstW : Str → Str
  | [] => []
  | c :: cs => upperC c :: cs

/-- lodash `_.camelCase` for ASCII input. -/
def camelCase (s : Str) : Str :=
  match lwords s with
  | [] => []
  | w :: ws => w.map lowerC ++ (ws.map (fun u => upperFirstW (u.map lowerC))).flatten

/-- `upperCamelCase` from the source: `_.camelCase`, then upper-case
the first character and keep `substr(1, length - 1)`. -/
def upperCamelCase (toConvert : Str) : Str := upperFirstW (camelCase toConvert)

/-- lodash `_.kebabCase` for ASCII input. -/
def kebabCase (s : Str) : Str :=
  (List.intersperse ['-'] ((lwords s).map (fun w => w.map lowerC))).flatten

/-! ### Character classes of the lodash outputs -/

theorem splitRunsAux_chars :
    ∀ (s cur : Str), (∀ c ∈ cur, isAl c = true) →
      ∀ w ∈ splitRunsAux cur s, ∀ c ∈ w, isAl c = true := by
  intro s
  induction s with
  | nil =>
    intro cur hcur w hw
    simp only [splitRunsAux] at hw
    by_cases hc : cur.isEmpty
    · simp [hc] at hw
    · simp [hc] at hw
      subst hw
      intro c hc2
      exact hcur c (List.mem_reverse.mp hc2)
  | cons a as ih =>
    intro cur hcur w hw
    simp only [splitRunsAux] at hw
    by_cases ha : isAl a
    · rw [if_pos ha] at hw
      refine ih (a :: cur) ?_ w hw
      intro c hc
      rcases List.mem_cons.mp hc with rfl | hc
      · exact ha
      · exact hcur c hc
    · rw [if_neg ha] at hw
      rcases List.mem_append.mp hw with hw | hw
      · by_cases hc : cur.isEmpty
        · simp [hc] at hw
        · simp [hc] at hw
          subst hw
          intro c hc2
          exact hcur c (List.mem_reverse.mp hc2)
      · exact ih [] (by simp) w hw

theorem takeUppers_append (acc : Str) :
    ∀ s : Str, (takeUppers acc s).1 ++ (takeUppers acc s).2 = acc.reverse ++ s := by
  intro s
  induction s generalizing acc with
  | nil => simp [takeUppers]
  | cons d ds ih =>
    simp only [takeUppers]
    by_cases hu : isUpperC d
    · simp only [hu, if_true]
      match ds with
      | [] => simp
      | e :: es =>
        by_cases hl : isLowerC e
        · simp [hl]
        · dsimp only
          rw [if_neg hl]
          rw [ih (d :: acc)]
          simp
    · simp [hu]

theorem takeWord_append (s : Str) :
    (takeWord s).1 ++ (takeWord s).2 = s := by
  match s with
  | [] => simp [takeWord]
  | c :: cs =>
    simp only [takeWord]
    by_cases h1 : isDigitC c
    · simp [h1, List.takeWhile_append_dropWhile]
    · by_cases h2 : isLowerC c
      · simp [h1, h2, List.takeWhile_append_dropWhile]
      · rw [if_neg h1, if_neg h2]
        match cs with
        | [] => simp
        | d :: ds =>
          dsimp only
          by_cases h3 : isLowerC d
          · rw [if_pos h3]
            simp [List.takeWhile_append_dropWhile]
          · rw [if_neg h3]
            by_cases h4 : isUpperC d
            · rw [if_pos h4, takeUppers_append [c] (d :: ds)]
              simp
            · rw [if_neg h4]
              simp

theorem splitCamel_mem {s : Str} :
    ∀ w ∈ splitCamel s, ∀ c ∈ w, c ∈ s := by
  match s with
  | [] => simp [splitCamel, splitCamelGo]
  | a :: as =>
    intro w hw c hc
    rw [splitCamel_cons] at hw
    rcases List.mem_cons.mp hw with rfl | hw
    · rw [← takeWord_append (a :: as)]
      exact List.mem_append.mpr (Or.inl hc)
    · have hrec := splitCamel_mem (s := (takeWord (a :: as)).2) w hw c hc
      rw [← takeWord_append (a :: as)]
      exact List.mem_append.mpr (Or.inr hrec)
termination_by s.length
decreasing_by exact takeWord_snd_lt _ (by simp)

theorem lwords_chars {s : Str} :
    ∀ w ∈ lwords s, ∀ c ∈ w, isAl c = true := by
  intro w hw c hc
  obtain ⟨r, hr, hw2⟩ := List.mem_flatMap.mp hw
  have hral := splitRunsAux_chars s [] (by simp) r hr
  exact hral c (splitCamel_mem w hw2 c hc)

theorem upperFirstW_chars {l : Str} (h : ∀ c ∈ l, isAl c = true) :
    ∀ c ∈ upperFirstW l, isAl c = true := by
  match l with
  | [] => simp [upperFirstW]
  | a :: as =>
    intro c hc
    simp only [upperFirstW] at hc
    rcases List.mem_cons.mp hc with rfl | hc
    · exact isAl_upperC (h a (by simp))
    · exact h c (by simp [hc])

theorem camelCase_chars {s : Str} : ∀ c ∈ camelCase s, isAl c = true := by
  intro c hc
  unfold camelCase at hc
  match hl : lwords s with
  | [] => rw [hl] at hc; simp at hc
  | w :: ws =>
    rw [hl] at hc
    rcases List.mem_append.mp hc with hc | hc
    · obtain ⟨d, hd, rfl⟩ := List.mem_map.mp hc
      exact isAl_lowerC (lwords_chars (s := s) w (by simp [hl]) d hd)
    · obtain ⟨u2, hu2, hcu⟩ := List.mem_flatten.mp hc
      obtain ⟨u, hu, rfl⟩ := List.mem_map.mp hu2
      refine upperFirstW_chars ?_ c hcu
      intro d hd
      obtain ⟨e, he, rfl⟩ := List.mem_map.mp hd
      exact isAl_lowerC (lwords_chars (s := s) u (by simp [hl, hu]) e he)

theorem upperCamelCase_chars {s : Str} :
    ∀ c ∈ upperCamelCase s, isAl c = true :=
  upperFirstW_chars camelCase_chars

theorem mem_intersperse {α : Type} {sep x : α} :
    ∀ {l : List α}, x ∈ l.intersperse sep → x = sep ∨ x ∈ l
  | [] => by simp [List.intersperse]
  | [a] => by
      intro h
      simp [List.intersperse] at h
      simp [h]
  | a :: b :: t => by
      intro h
      rw [List.intersperse_cons_cons] at h
      rcases List.mem_cons.mp h with rfl | h
      · simp
      · rcases List.mem_cons.mp h with rfl | h
        · exact Or.inl rfl
        · rcases mem_intersperse h with h | h
          · exact Or.inl h
          · right
            simp only [List.mem_cons] at h ⊢
            tauto

theorem kebabCase_chars {s : Str} :
    ∀ c ∈ kebabCase s, isAl c = true ∨ c = '-' := by
  intro c hc
  unfold kebabCase at hc
  obtain ⟨piece, hpiece, hcp⟩ := List.mem_flatten.mp hc
  rcases mem_intersperse hpiece with rfl | hpiece
  · right
    simpa using hcp
  · obtain ⟨w, hw, rfl⟩ := List.mem_map.mp hpiece
    obtain ⟨d, hd, rfl⟩ := List.mem_map.mp hcp
    exact Or.inl (isAl_lowerC (lwords_chars w hw d hd))

/-! ### Separator invariance of `upperCamelCase` (used for the `rt`
pattern, whose full match is `#word-` while the captured group is
`word`) -/

theorem splitRunsAux_cons_sep {c : Char} (hc : isAl c = false) (s : Str) :
    splitRuns (c :: s) = splitRuns s := by
  simp [splitRuns, splitRunsAux, hc]

theorem splitRunsAux_trail_sep {c : Char} (hc : isAl c = false) :
    ∀ (s cur : Str), splitRunsAux cur (s ++ [c]) = splitRunsAux cur s := by
  intro s
  induction s with
  | nil =>
    intro cur
    show splitRunsAux cur [c] = splitRunsAux cur []
    simp only [splitRunsAux, hc, Bool.false_eq_true, if_false]
    simp
  | cons a as ih =>
    intro cur
    rw [List.cons_append]
    simp only [splitRunsAux]
    by_cases ha : isAl a
    · rw [if_pos ha, if_pos ha, ih]
    · rw [if_neg ha, if_neg ha, ih []]

theorem lwords_sep_invariant (w : Str) :
    lwords ('#' :: w ++ ['-']) = lwords w := by
  unfold lwords
  rw [show ('#' :: w ++ ['-'] : Str) = '#' :: (w ++ ['-']) by simp]
  rw [splitRunsAux_cons_sep (by decide)]
  rw [show splitRuns (w ++ ['-']) = splitRunsAux [] (w ++ ['-']) from rfl]
  rw [splitRunsAux_trail_sep (by decide)]
  rfl

theorem upperCamelCase_sep_invariant (w : Str) :
    upperCamelCase ('#' :: w ++ ['-']) = upperCamelCase w := by
  unfold upperCamelCase camelCase
  rw [lwords_sep_invariant]

/-! ### The `rt` relation-target pattern `REGEXP_RT_ENTITY_NAME`,
i.e. hash, captured `\w+` group, dash.

`String.match` without the `g` flag returns the leftmost match; the
source uses element `[0]` (the full match `#word-`), not the captured
group.  `rtMatchData` returns both the full match and the captured
group of the leftmost match. -/

/-- Length of the maximal `\w` run of `t` starting at index `j`. -/
def wordRun (t : Str) (j : Nat) : Nat := ((t.drop j).takeWhile wordC).length

/-- Whether the pattern hash`(\w+)`dash matches `t` at index `i`.
With backtracking, the greedy `\w+` run must be followed directly by
`'-'`. -/
def rtMatchAt (t : Str) (i : Nat) : Bool :=
  t.getD i ' ' == '#' && decide (1 ≤ wordRun t (i + 1)) &&
    t.getD (i + 1 + wordRun t (i + 1)) ' ' == '-'

/-- `t.match(REGEXP_RT_ENTITY_NAME)`: `none` models the `null` result;
otherwise `(full match, captured group)` = (`match[0]`, `match[1]`). -/
def rtMatchData (t : Str) : Option (Str × Str) :=
  match findIdx (rtMatchAt t) 0 (t.length + 1) with
  | none => none
  | some i =>
    some ((t.drop i).take (wordRun t (i + 1) + 2),
          (t.drop (i + 1)).take (wordRun t (i + 1)))

theorem take_len_takeWhile (p : Char → Bool) (l : Str) :
    l.take (l.takeWhile p).length = l.takeWhile p := by
  induction l with
  | nil => simp
  | cons a as ih =>
    by_cases ha : p a
    · simp [List.takeWhile_cons, ha, ih]
    · simp [List.takeWhile_cons, ha]

theorem rtMatchData_shape {t f w : Str}
    (h : rtMatchData t = some (f, w)) : f = '#' :: w ++ ['-'] := by
  unfold rtMatchData at h
  match hfi : findIdx (rtMatchAt t) 0 (t.length + 1) with
  | none => rw [hfi] at h; simp at h
  | some i =>
    rw [hfi] at h
    simp only [Option.some.injEq, Prod.mk.injEq] at h
    obtain ⟨hf, hw⟩ := h
    have hat := (findIdx_eq_some hfi).1
    simp only [rtMatchAt, Bool.and_eq_true, beq_iff_eq, decide_eq_true_iff] at hat
    obtain ⟨⟨hhash, hrun⟩, hdash⟩ := hat
    set r : Nat := wordRun t (i + 1) with hr
    have hi : i < t.length := by
      by_contra hcon
      rw [List.getD_eq_default _ _ (by omega)] at hhash
      exact absurd hhash (by decide)
    have hir : i + 1 + r < t.length := by
      by_contra hcon
      rw [List.getD_eq_default _ _ (by omega)] at hdash
      exact absurd hdash (by decide)
    have hdlen : (t.drop (i + 1)).length = t.length - (i + 1) := by simp
    set TW : Str := (t.drop (i + 1)).takeWhile wordC with hTW
    set DW : Str := (t.drop (i + 1)).dropWhile wordC with hDW
    have hTWlen : TW.length = r := by rw [hTW, hr]; rfl
    have hsplit : t.drop (i + 1) = TW ++ DW :=
      (List.takeWhile_append_dropWhile wordC (t.drop (i + 1))).symm
    have hwTW : w = TW := by
      rw [← hw, ← hTWlen, hTW]
      exact take_len_takeWhile wordC (t.drop (i + 1))
    -- the character just after the word run is '-'
    have hDWne : DW ≠ [] := by
      intro hcon
      have : (t.drop (i + 1)).length = r := by
        rw [hsplit, hcon, List.append_nil, hTWlen]
      omega
    have hdashr : (t.drop (i + 1)).getD r ' ' = '-' := by
      have : (t.drop (i + 1)).getD r ' ' = t.getD (i + 1 + r) ' ' := by
        rw [List.getD_eq_getElem _ _ (by omega), List.getD_eq_getElem _ _ (by omega),
          List.getElem_drop]
      rw [this, hdash]
    obtain ⟨d, tl, htl0⟩ := List.exists_cons_of_ne_nil hDWne
    have hd : d = '-' := by
      have hx : (t.drop (i + 1)).getD r ' ' = d := by
        rw [hsplit, htl0, List.getD_append_right _ _ _ _ (by omega), hTWlen]
        simp
      rw [hdashr] at hx
      exact hx.symm
    have htl : DW = '-' :: tl := by rw [htl0, hd]
    -- assemble the full match
    have hdropi : t.drop i = '#' :: t.drop (i + 1) := by
      rw [List.drop_eq_getElem_cons hi]
      congr 1
      rw [← List.getD_eq_getElem _ ' ' hi]
      exact hhash
    rw [← hf, hdropi, hwTW]
    rw [show r + 2 = (r + 1) + 1 by omega, List.take_succ_cons]
    congr 1
    rw [hsplit, List.take_append_eq_append_take, List.take_of_length_le (by omega),
      hTWlen, htl]
    have : r + 1 - r = 1 := by omega
    rw [this]
    simp

/-- Lines 441–451 of the source: compute the new property type from a
profile property's name and its `rt` relation target.  `isPlural`
abstracts the external `pluralize.isPlural` test.  A `none` result
models the `TypeError` thrown when the pattern does not match
(`match(...)` returns `null` and `[0]` is taken). -/
def newPropertyType (isPlural : Str → Bool) (propertyName rt : Str) :
    Option Str :=
  match rtMatchData rt with
  | none => none
  | some fw =>
    let referencedEntity := upperCamelCase fw.1
    if isPlural propertyName then some (referencedEntity ++ "[]".data)
    else some referencedEntity

/-- Claim C1: for a profile property whose `rt` target matches the
hash-separator pattern (captured word `w`), the emitted property type
is the upper-camel-case form of `w`, with `[]` appended exactly when
the source property name is a plural noun (per the external
pluralisation test). -/
theorem c1_reference_type_cardinality (ipl : Str → Bool)
    (propertyName rt f w : Str) (h : rtMatchData rt = some (f, w)) :
    newPropertyType ipl propertyName rt =
      some (if ipl propertyName then upperCamelCase w ++ "[]".data
            else upperCamelCase w) := by
  have hshape := rtMatchData_shape h
  have hsep : upperCamelCase f = upperCamelCase w := by
    rw [hshape]
    exact upperCamelCase_sep_invariant w
  unfold newPropertyType
  rw [h]
  by_cases hp : ipl propertyName <;> simp [hp, hsep]

/-- Witness for C1: property `books` with relation target
`…#book-representation` gets type `Book[]`; the singular test is the
trailing-`s` oracle standing in for `pluralize.isPlural`. -/
theorem c1_reference_type_cardinality_witness :
    rtMatchData "http://localhost/profile/books#book-representation".data =
      some ("#book-".data, "book".data) ∧
    newPropertyType (fun s => s.getD (s.length - 1) ' ' == 's')
        "books".data
        "http://localhost/profile/books#book-representation".data =
      some (upperCamelCase "book".data ++ "[]".data) ∧
    upperCamelCase "book".data ++ "[]".data = "Book[]".data := by
  refine ⟨by decide, ?_, by decide⟩
  rw [c1_reference_type_cardinality (fun s => s.getD (s.length - 1) ' ' == 's')
    "books".data "http://localhost/profile/books#book-representation".data
    "#book-".data "book".data (by decide)]
  decide

/-! ### Import handling (lines 463–471 and constant line 157) -/

/-- `STR_IMPORT_REPLACE`: the fixed base-class import line. -/
def STR_IMPORT_REPLACE : Str :=
  "import \x7b Resource \x7d from \x27@lagoshny/ngx-hal-client\x27;".data

/-- Lines 463–464: the import statement for a referenced entity. -/
def newImportOf (referencedEntity : Str) : Str :=
  "import \x7b ".data ++ referencedEntity ++ " \x7d from \x27./".data ++
    kebabCase referencedEntity ++ "\x27;".data

/-- Lines 466–471: keep the text when the import is already present,
otherwise replace the first occurrence of the base-class import line
with itself followed by a newline and the new import. -/
def addImport (referencedEntity t : Str) : Str :=
  if includes t (newImportOf referencedEntity) then t
  else replaceFirst t STR_IMPORT_REPLACE
    (STR_IMPORT_REPLACE ++ '\n' :: newImportOf referencedEntity)

theorem newImportOf_props {E : Str} (hE : ∀ c ∈ E, isAl c = true) :
    1 ≤ (newImportOf E).length ∧ '\n' ∉ newImportOf E ∧
      ';' ∉ (newImportOf E).dropLast ∧
      (newImportOf E).getD ((newImportOf E).length - 1) ' ' = ';' := by
  have hK : ∀ c ∈ kebabCase E, c ≠ '\n' ∧ c ≠ ';' := by
    intro c hc
    rcases kebabCase_chars (s := E) c hc with h | h
    · exact ⟨isAl_ne_of h (by decide), isAl_ne_of h (by decide)⟩
    · subst h; exact ⟨by decide, by decide⟩
  have hEc : ∀ c ∈ E, c ≠ '\n' ∧ c ≠ ';' := by
    intro c hc
    exact ⟨isAl_ne_of (hE c hc) (by decide), isAl_ne_of (hE c hc) (by decide)⟩
  have hsplit : newImportOf E =
      ("import \x7b ".data ++ E ++ " \x7d from \x27./".data ++
        kebabCase E ++ ['\x27']) ++ [';'] := by
    unfold newImportOf
    rw [show ("\x27;".data : Str) = ['\x27'] ++ [';'] from rfl]
    simp [List.append_assoc]
  refine ⟨?_, ?_, ?_, ?_⟩
  · rw [hsplit]; simp
  · rw [hsplit]
    intro hmem
    rcases List.mem_append.mp hmem with h | h
    · rcases List.mem_append.mp h with h | h
      · rcases List.mem_append.mp h with h | h
        · rcases List.mem_append.mp h with h | h
          · rcases List.mem_append.mp h with h | h
            · revert h; decide
            · exact absurd rfl (hEc _ h).1.symm
          · revert h; decide
        · exact absurd rfl (hK _ h).1.symm
      · revert h; decide
    · revert h; decide
  · rw [hsplit, List.dropLast_concat]
    intro hmem
    rcases List.mem_append.mp hmem with h | h
    · rcases List.mem_append.mp h with h | h
      · rcases List.mem_append.mp h with h | h
        · rcases List.mem_append.mp h with h | h
          · revert h; decide
          · exact absurd rfl (hEc _ h).2.symm
        · revert h; decide
      · exact absurd rfl (hK _ h).2.symm
    · revert h; decide
  · rw [hsplit]
    rw [List.length_append, List.length_singleton, Nat.add_sub_cancel]
    rw [List.getD_append_right _ _ _ _ (Nat.le_refl _), Nat.sub_self]
    rfl

theorem includes_of_countOcc_pos {p t : Str} (h : 1 ≤ countOcc p t) :
    includes t p = true := by
  match hv : includes t p with
  | true => rfl
  | false =>
    have := countOcc_eq_zero_iff.mpr (includes_eq_false_iff.mp hv)
    omega

/-- Claim C2: after the import step for a referenced entity (an
upper-camel-case conversion result), the entity's import statement
occurs exactly once in the resulting text; re-running on
already-resolved text does not duplicate it (left as is when present,
otherwise appended directly after the base-class import line). -/
theorem c2_import_exactly_once (v t : Str)
    (hbase : includes t STR_IMPORT_REPLACE = true)
    (hcount : countOcc (newImportOf (upperCamelCase v)) t ≤ 1) :
    countOcc (newImportOf (upperCamelCase v))
        (addImport (upperCamelCase v) t) = 1
    ∧ (includes t (newImportOf (upperCamelCase v)) = true →
        addImport (upperCamelCase v) t = t)
    ∧ (includes t (newImportOf (upperCamelCase v)) = false →
        ∃ x y, t = x ++ STR_IMPORT_REPLACE ++ y ∧
          addImport (upperCamelCase v) t =
            x ++ (STR_IMPORT_REPLACE ++ '\n' ::
              newImportOf (upperCamelCase v)) ++ y)
    ∧ addImport (upperCamelCase v) (addImport (upperCamelCase v) t) =
        addImport (upperCamelCase v) t := by
  set E : Str := upperCamelCase v with hEdef
  obtain ⟨hlen, hnl, hsemi, hlast⟩ :=
    newImportOf_props (E := E) upperCamelCase_chars
  by_cases hin : includes t (newImportOf E) = true
  · have heq : addImport E t = t := by rw [addImport, if_pos hin]
    have hpos : 1 ≤ countOcc (newImportOf E) t := by
      obtain ⟨i, hi⟩ := includes_iff.mp hin
      exact countOcc_pos_of_matchAt hi
    refine ⟨by rw [heq]; omega, fun _ => heq, fun hcon => ?_, by rw [heq, heq]⟩
    rw [hin] at hcon
    exact absurd hcon (by simp)
  · have hin' : includes t (newImportOf E) = false := by
      match hv : includes t (newImportOf E) with
      | false => rfl
      | true => exact absurd hv hin
    match hfm : findMatch STR_IMPORT_REPLACE t with
    | none => rw [includes, hfm] at hbase; simp at hbase
    | some i =>
      have hdec := matchAt_decompose (findMatch_some hfm).1
      have heq : addImport E t =
          t.take i ++ (STR_IMPORT_REPLACE ++ '\n' :: newImportOf E) ++
            t.drop (i + STR_IMPORT_REPLACE.length) := by
        rw [addImport, if_neg hin, replaceFirst, hfm]
      have hzero : ∀ j, matchAt (newImportOf E)
          (t.take i ++ STR_IMPORT_REPLACE ++
            t.drop (i + STR_IMPORT_REPLACE.length)) j = false := by
        rw [← hdec]
        exact includes_eq_false_iff.mp hin'
      have hone : countOcc (newImportOf E)
          (t.take i ++ (STR_IMPORT_REPLACE ++ '\n' :: newImportOf E) ++
            t.drop (i + STR_IMPORT_REPLACE.length)) = 1 :=
        countOcc_insert_one _ _ _ _ hlen hnl hsemi hlast hzero
      refine ⟨by rw [heq]; exact hone, fun hcon => absurd hcon hin,
        fun _ => ⟨t.take i, t.drop (i + STR_IMPORT_REPLACE.length),
          hdec, heq⟩, ?_⟩
      rw [heq]
      have hincl : includes
          (t.take i ++ (STR_IMPORT_REPLACE ++ '\n' :: newImportOf E) ++
            t.drop (i + STR_IMPORT_REPLACE.length)) (newImportOf E) = true :=
        includes_of_countOcc_pos (by omega)
      rw [addImport, if_pos hincl]

/-- Witness for C2: a minimal rendered class containing the
base-class import line but no entity import yet; the `Book` import is
inserted exactly once and a second run leaves the text unchanged. -/
theorem c2_import_exactly_once_witness :
    includes
        ("import \x7b Resource \x7d from \x27@lagoshny/ngx-hal-client\x27;\nexport class Book \x7b\n\x7d\n".data)
        STR_IMPORT_REPLACE = true
    ∧ countOcc (newImportOf (upperCamelCase "book".data))
        ("import \x7b Resource \x7d from \x27@lagoshny/ngx-hal-client\x27;\nexport class Book \x7b\n\x7d\n".data) ≤ 1
    ∧ countOcc (newImportOf (upperCamelCase "book".data))
        (addImport (upperCamelCase "book".data)
          "import \x7b Resource \x7d from \x27@lagoshny/ngx-hal-client\x27;\nexport class Book \x7b\n\x7d\n".data) = 1 := by
  have h1 : includes
      ("import \x7b Resource \x7d from \x27@lagoshny/ngx-hal-client\x27;\nexport class Book \x7b\n\x7d\n".data)
      STR_IMPORT_REPLACE = true := by decide
  have h2 : includes
      ("import \x7b Resource \x7d from \x27@lagoshny/ngx-hal-client\x27;\nexport class Book \x7b\n\x7d\n".data)
      (newImportOf (upperCamelCase "book".data)) = false := by decide
  have h2' : countOcc (newImportOf (upperCamelCase "book".data))
      ("import \x7b Resource \x7d from \x27@lagoshny/ngx-hal-client\x27;\nexport class Book \x7b\n\x7d\n".data) = 0 :=
    countOcc_eq_zero_iff.mpr (includes_eq_false_iff.mp h2)
  exact ⟨h1, by omega,
    (c2_import_exactly_once "book".data
      "import \x7b Resource \x7d from \x27@lagoshny/ngx-hal-client\x27;\nexport class Book \x7b\n\x7d\n".data
      h1 (by omega)).1⟩

/-- Claim C10: when the text contains neither the entity's import line
nor the fixed base-class import line, the import step returns the text
unchanged (and, being total, raises no error). -/
theorem c10_import_silent_noop (referencedEntity t : Str)
    (h1 : includes t (newImportOf referencedEntity) = false)
    (h2 : includes t STR_IMPORT_REPLACE = false) :
    addImport referencedEntity t = t := by
  rw [addImport, if_neg (by rw [h1]; exact Bool.false_ne_true)]
  exact replaceFirst_no_match h2

/-- Witness for C10: a text with no import lines at all is returned
unchanged. -/
theorem c10_import_silent_noop_witness :
    includes "export class Book \x7b\n\x7d\n".data
        (newImportOf "Book".data) = false
    ∧ includes "export class Book \x7b\n\x7d\n".data STR_IMPORT_REPLACE = false
    ∧ addImport "Book".data "export class Book \x7b\n\x7d\n".data =
        "export class Book \x7b\n\x7d\n".data :=
  ⟨by decide, by decide,
    c10_import_silent_noop "Book".data "export class Book \x7b\n\x7d\n".data
      (by decide) (by decide)⟩

/-! ### Removal of the generated `export type` alias declaration
(constant line 156, used at lines 455–458)

`STR_REGEXP_TYPESCRIPT_EXPORT_TYPE` is the template
`export type $$@$$.*;\n` whose placeholder is replaced by the alias
name; the resulting regular expression (no flags) removes the first
match.  Since `.` does not match a newline, a match starting at `q` is
the span from `q` through the first following newline, provided the
text there starts with `export type <name>` and that line ends in
`;`. -/

/-- Index of the first newline at or after `q` (the text length when
there is none). -/
def lineEnd (t : Str) (q : Nat) : Nat :=
  q + ((t.drop q).takeWhile (fun c => !(c == '\n'))).length

/-- Whether the built regular expression matches at `q`: the literal
header `export type <name>`, then (greedy `.*` and backtracking) a
`;` directly before the line's newline. -/
def exportTypeMatchAt (aname t : Str) (q : Nat) : Bool :=
  matchAt ("export type ".data ++ aname) t q &&
    decide (q + ("export type ".data ++ aname).length + 1 ≤ lineEnd t q) &&
    t.getD (lineEnd t q - 1) ' ' == ';' && decide (lineEnd t q < t.length)

/-- Lines 455–458: replace the first match of the built regular
expression by the empty string. -/
def removeExportType (aname t : Str) : Str :=
  match findIdx (exportTypeMatchAt aname t) 0 (t.length + 1) with
  | none => t
  | some q => t.take q ++ t.drop (lineEnd t q + 1)

theorem findIdx_first {f : Nat → Bool} {n q : Nat} (hq : f q = true)
    (hqn : q < n) (hmin : ∀ j, j < q → f j = false) :
    findIdx f 0 n = some q := by
  match h : findIdx f 0 n with
  | some r =>
    obtain ⟨h1, _, _, h4⟩ := findIdx_eq_some h
    have : q = r := by
      rcases Nat.lt_trichotomy q r with hlt | he | hgt
      · exact absurd hq (by simp [h4 q (Nat.zero_le _) hlt])
      · exact he
      · exact absurd h1 (by simp [hmin r hgt])
    rw [this]
  | none => exact absurd hq (by simp [findIdx_eq_none h q (Nat.zero_le _) (by omega)])

theorem takeWhile_all_append {p : Char → Bool} {w : Str} {d : Char}
    {rest : Str} (hw : ∀ c ∈ w, p c = true) (hd : p d = false) :
    (w ++ d :: rest).takeWhile p = w := by
  induction w with
  | nil => simp [List.takeWhile_cons, hd]
  | cons a as ih =>
    rw [List.cons_append, List.takeWhile_cons, hw a (by simp)]
    rw [ih (fun c hc => hw c (by simp [hc]))]
    simp

/-- Claim C3 (amended): the removal deletes exactly the first text
span of the form `export type <name>…;⏎` where `<name>` begins with
the resolved alias name; everything before and after that span is
preserved verbatim.  (The original claim's exact-name matching fails:
see the counterexample.) -/
theorem c3_remove_first_matching_declaration (A B u aname : Str)
    (hnl1 : '\n' ∉ aname) (hnl2 : '\n' ∉ u)
    (hmin : ∀ q, q < A.length →
      exportTypeMatchAt aname
        (A ++ ("export type ".data ++ aname ++ u ++ [';', '\n']) ++ B) q = false) :
    removeExportType aname
        (A ++ ("export type ".data ++ aname ++ u ++ [';', '\n']) ++ B) =
      A ++ B := by
  set w : Str := "export type ".data ++ aname ++ u ++ [';'] with hw
  set D : Str := "export type ".data ++ aname ++ u ++ [';', '\n'] with hD
  have hDw : D = w ++ ['\n'] := by rw [hD, hw]; simp
  set t : Str := A ++ D ++ B with ht
  have htw : t = A ++ (w ++ ('\n' :: B)) := by
    rw [ht, hDw]; simp
  have hwnl : ∀ c ∈ w, (!(c == '\n')) = true := by
    intro c hc
    rw [hw] at hc
    have hne : c ≠ '\n' := by
      rcases List.mem_append.mp hc with h | h
      · rcases List.mem_append.mp h with h | h
        · rcases List.mem_append.mp h with h | h
          · have hall : ("export type ".data : Str).all
                (fun x => !(x == '\n')) = true := by decide
            have := List.all_eq_true.mp hall c h
            simpa using this
          · intro he; exact hnl1 (he ▸ h)
        · intro he; exact hnl2 (he ▸ h)
      · have : c = ';' := by simpa using h
        rw [this]; decide
    simpa using hne
  have hle : lineEnd t A.length = A.length + w.length := by
    rw [lineEnd]
    rw [htw, List.drop_left]
    rw [takeWhile_all_append hwnl (by decide)]
  have hlen : t.length = A.length + w.length + 1 + B.length := by
    rw [htw]; simp only [List.length_append, List.length_cons]; omega
  have hmatch : exportTypeMatchAt aname t A.length = true := by
    rw [exportTypeMatchAt]
    have h1 : matchAt ("export type ".data ++ aname) t A.length = true := by
      have hx : t = A ++ (("export type ".data ++ aname) ++
          (u ++ [';'] ++ ('\n' :: B))) := by
        rw [htw, hw]; simp
      rw [hx]
      have := matchAt_append_right ("export type ".data ++ aname) A
        (("export type ".data ++ aname) ++ (u ++ [';'] ++ ('\n' :: B))) 0
      rw [Nat.add_zero] at this
      rw [this]
      exact matchAt_self _ _
    have h2 : A.length + ("export type ".data ++ aname).length + 1 ≤
        lineEnd t A.length := by
      rw [hle, hw]
      simp only [List.length_append, List.length_cons]
      omega
    have h3 : t.getD (lineEnd t A.length - 1) ' ' = ';' := by
      have hw1 : 1 ≤ w.length := by rw [hw]; simp
      have hlastw : w.getD (w.length - 1) ' ' = ';' := by
        rw [hw, List.length_append, List.length_singleton, Nat.add_sub_cancel,
          List.getD_append_right _ _ _ _ (Nat.le_refl _), Nat.sub_self]
        rfl
      rw [hle, htw]
      rw [List.getD_append_right _ _ _ _ (by omega)]
      rw [show A.length + w.length - 1 - A.length = w.length - 1 from by omega]
      rw [List.getD_append _ _ _ _ (by omega)]
      exact hlastw
    have h4 : lineEnd t A.length < t.length := by
      rw [hle, hlen]; omega
    have h2d : decide (A.length + ("export type ".data ++ aname).length + 1 ≤
        lineEnd t A.length) = true := by simpa using h2
    have h4d : decide (lineEnd t A.length < t.length) = true := by
      simpa using h4
    rw [h1, h3, h2d, h4d]
    rfl
  have hfound : findIdx (exportTypeMatchAt aname t) 0 (t.length + 1) =
      some A.length :=
    findIdx_first hmatch (by omega) hmin
  rw [removeExportType]
  rw [hfound]
  dsimp only
  rw [hle]
  have htake : t.take A.length = A := by
    rw [ht, List.append_assoc, List.take_left]
  have hdrop : t.drop (A.length + w.length + 1) = B := by
    rw [htw]
    rw [show A.length + w.length + 1 = (A ++ (w ++ ['\n'])).length from by
      simp only [List.length_append, List.length_cons, List.length_nil]
      omega]
    rw [show (A ++ (w ++ ('\n' :: B)) : Str) = (A ++ (w ++ ['\n'])) ++ B from by
      simp]
    exact List.drop_left _ _
  rw [htake, hdrop]

/-- Counterexample for C3 as stated: with resolved alias `Items`, the
declaration of the similarly-prefixed alias `Items2` is the first
match of the prefix-based pattern and is deleted, while the exact
`Items` declaration survives. -/
theorem c3_counterexample :
    removeExportType "Items".data
        "export type Items2 = string;\nexport type Items = Foo;\nmore\n".data =
      "export type Items = Foo;\nmore\n".data
    ∧ includes
        "export type Items2 = string;\nexport type Items = Foo;\nmore\n".data
        "export type Items2".data = true
    ∧ includes "export type Items = Foo;\nmore\n".data
        "export type Items2".data = false := by
  refine ⟨by decide, by decide, by decide⟩

/-- Witness for the amended C3: with the exact declaration first, it
is the first match, it alone is removed, and the similarly-prefixed
`Items2` declaration is untouched. -/
theorem c3_remove_first_matching_declaration_witness :
    removeExportType "Items".data
        ("head\n".data ++
          ("export type ".data ++ "Items".data ++ " = Foo".data ++ [';', '\n']) ++
          "export type Items2 = string;\n".data) =
      "head\n".data ++ "export type Items2 = string;\n".data := by
  rw [c3_remove_first_matching_declaration "head\n".data
    "export type Items2 = string;\n".data " = Foo".data "Items".data
    (by decide) (by decide) (by decide)]

/-! ### The property-type rewrite (constant line 155, lines 453–461)

`STR_APPEND_REGEXP_TYPESCRIPT_PROPERTY_TYPE` appends `\??: )(.+)(;)$`
to the property name, producing the multiline regular expression
`(<name>\??: )(.+)(;)$`.  The first match (greedy `.+`, `;` directly
before the end of a line) yields groups `[0]`–`[3]`; the generated
alias declaration named by group 2 is removed, then every occurrence
of the full match is replaced by group 1, the new type, and group 3. -/

/-- Whether the property regular expression matches `t` at `q`. -/
def propMatchAt (pn t : Str) (q : Nat) : Bool :=
  matchAt pn t q &&
    (let q2 := q + pn.length +
        (if t.getD (q + pn.length) ' ' == '?' then 1 else 0)
     matchAt ": ".data t q2 &&
       decide (q2 + 2 + 2 ≤ lineEnd t q) &&
       t.getD (lineEnd t q - 1) ' ' == ';')

/-- The capture groups of the JS match result (elements 0–3). -/
structure PropMatch where
  g0 : Str
  g1 : Str
  g2 : Str
  g3 : Str
deriving DecidableEq

/-- `renderedClass.match(new RegExp('(' + propertyName + STR_APPEND…))`:
the leftmost match with its groups, `none` for `null`. -/
def propMatch (pn t : Str) : Option PropMatch :=
  match findIdx (propMatchAt pn t) 0 (t.length + 1) with
  | none => none
  | some q =>
    let q2 := q + pn.length +
        (if t.getD (q + pn.length) ' ' == '?' then 1 else 0)
    let e := lineEnd t q
    some ⟨(t.drop q).take (e - q),
          (t.drop q).take (q2 + 2 - q),
          (t.drop (q2 + 2)).take (e - 1 - (q2 + 2)),
          (t.drop (e - 1)).take 1⟩

/-- Lines 453–461: locate the property's old type, remove the
generated alias declaration, and globally replace the matched text by
group 1, the new type, and group 3; `none` models the `TypeError` when
the match is `null`. -/
def rewriteProperty (pn newType t : Str) : Option Str :=
  match propMatch pn t with
  | none => none
  | some g =>
    let exportRemoved := removeExportType g.g2 t
    some (replaceAll exportRemoved g.g0 (g.g1 ++ newType ++ g.g3))

theorem countOcc_eq_one_of_bounded_unique {p t : Str} {m : Nat}
    (hm : matchAt p t m = true)
    (h : ∀ q, q < t.length + 1 → matchAt p t q = true → q = m) :
    countOcc p t = 1 :=
  countOcc_eq_one_of_unique hm
    (fun q hq => h q (by have := matchAt_le hq; omega) hq)

/-- Join a list of segments with the separator `sep` between adjacent
segments: `joinSep sep [a, b, c] = a ++ sep ++ b ++ sep ++ c`.  A text
with `n` occurrences of a pattern decomposes as `joinSep pat segs`
with `n + 1` segments. -/
def joinSep (sep : Str) : List Str → Str
  | [] => []
  | [s] => s
  | s :: s2 :: rest => s ++ sep ++ joinSep sep (s2 :: rest)

/-- Whether the decomposition `joinSep P segs` is exactly the
left-to-right scan of the global replace: each separator occurrence is
the leftmost occurrence of `P` in the remaining text, and the final
segment holds no further occurrence. -/
def goodSplit (P : Str) : List Str → Bool
  | [] => false
  | [s] => !includes s P
  | s :: s2 :: rest =>
      (findMatch P (s ++ P ++ joinSep P (s2 :: rest)) == some s.length) &&
        goodSplit P (s2 :: rest)

/-- The `g`-flag replace on a text decomposed into segments separated
by the pattern replaces every separator occurrence: the result is the
same segments joined by the replacement. -/
theorem replaceAll_joinSep {P R : Str} (hP : P.length ≠ 0) :
    ∀ {segs : List Str}, goodSplit P segs = true →
      replaceAll (joinSep P segs) P R = joinSep R segs := by
  intro segs
  induction segs with
  | nil => intro h; simp [goodSplit] at h
  | cons s rest ih =>
    intro h
    cases rest with
    | nil =>
      rw [goodSplit] at h
      rw [joinSep, joinSep]
      exact replaceAll_no_match (by simpa using h)
    | cons s2 rest2 =>
      rw [goodSplit, Bool.and_eq_true, beq_iff_eq] at h
      obtain ⟨hfm, hg⟩ := h
      rw [joinSep, replaceAll_of_findMatch hP hfm]
      rw [show (s ++ P ++ joinSep P (s2 :: rest2)).take s.length = s from by
        rw [List.append_assoc]; exact List.take_left _ _]
      rw [show (s ++ P ++ joinSep P (s2 :: rest2)).drop
          (s.length + P.length) = joinSep P (s2 :: rest2) from by
        rw [show s.length + P.length = (s ++ P).length from by simp]
        exact List.drop_left _ _]
      rw [ih hg]
      conv_rhs => rw [joinSep]

/-- Claim C4 (amended): the rewrite locates the first line-final
occurrence of `<name>[?]: <type>;` — the name is not anchored, so this
may sit inside a longer property name ending in `<name>` — and
replaces every occurrence of the matched text (the trailing text is
decomposed into the segments separated by those occurrences) with the
same name-and-marker part, the new type and the terminator, preserving
the optional-field marker and the `';'` exactly and leaving all
segments of surrounding text unchanged. -/
theorem c4_rewrite_preserves_marker_and_terminator
    (A B pn opt ty nt : Str) (segs : List Str)
    (hopt : opt = [] ∨ opt = ['?'])
    (hpnnl : '\n' ∉ pn) (htynl : '\n' ∉ ty) (htyne : ty ≠ [])
    (hmin : ∀ q, q < A.length → propMatchAt pn
      (A ++ (pn ++ opt ++ ": ".data ++ ty ++ [';']) ++ '\n' :: B) q = false)
    (hexp : removeExportType ty
        (A ++ (pn ++ opt ++ ": ".data ++ ty ++ [';']) ++ '\n' :: B) =
      A ++ (pn ++ opt ++ ": ".data ++ ty ++ [';']) ++ '\n' :: B)
    (hnoA : ∀ j, j < A.length →
      matchAt (pn ++ opt ++ ": ".data ++ ty ++ [';'])
        (A ++ (pn ++ opt ++ ": ".data ++ ty ++ [';']) ++ '\n' :: B) j = false)
    (hsegs : ('\n' :: B : Str) =
      joinSep (pn ++ opt ++ ": ".data ++ ty ++ [';']) segs)
    (hgood : goodSplit (pn ++ opt ++ ": ".data ++ ty ++ [';']) segs = true) :
    rewriteProperty pn nt
        (A ++ (pn ++ opt ++ ": ".data ++ ty ++ [';']) ++ '\n' :: B) =
      some (A ++ (pn ++ opt ++ ": ".data ++ nt ++ [';']) ++
        joinSep (pn ++ opt ++ ": ".data ++ nt ++ [';']) segs) := by
  set P : Str := pn ++ opt ++ ": ".data ++ ty ++ [';'] with hP
  set t : Str := A ++ P ++ '\n' :: B with ht
  have hoptnl : '\n' ∉ opt := by
    rcases hopt with rfl | rfl <;> simp
  have hPnl : ∀ c ∈ P, (!(c == '\n')) = true := by
    intro c hc
    rw [hP] at hc
    have hne : c ≠ '\n' := by
      rcases List.mem_append.mp hc with h | h
      · rcases List.mem_append.mp h with h | h
        · rcases List.mem_append.mp h with h | h
          · rcases List.mem_append.mp h with h | h
            · intro he; exact hpnnl (he ▸ h)
            · intro he; exact hoptnl (he ▸ h)
          · have : c = ':' ∨ c = ' ' := by simpa using h
            rcases this with rfl | rfl <;> decide
        · intro he; exact htynl (he ▸ h)
      · have : c = ';' := by simpa using h
        rw [this]; decide
    simpa using hne
  have hPlen : P.length = pn.length + opt.length + 2 + ty.length + 1 := by
    rw [hP]
    simp only [List.length_append, List.length_cons, List.length_nil,
      show (": ".data : Str).length = 2 from rfl]
  have htPz : t = A ++ (P ++ '\n' :: B) := by rw [ht, List.append_assoc]
  have htlen : t.length = A.length + P.length + 1 + B.length := by
    rw [htPz]; simp only [List.length_append, List.length_cons]; omega
  have hle : lineEnd t A.length = A.length + P.length := by
    rw [lineEnd, htPz, List.drop_left, takeWhile_all_append hPnl (by decide)]
  -- the match at the head of the embedded line
  have hpn : matchAt pn t A.length = true := by
    rw [show t = A ++ (pn ++ (opt ++ ": ".data ++ ty ++ [';'] ++ '\n' :: B))
        from by rw [ht, hP]; simp [List.append_assoc]]
    have := matchAt_append_right pn A
      (pn ++ (opt ++ ": ".data ++ ty ++ [';'] ++ '\n' :: B)) 0
    rw [Nat.add_zero] at this
    rw [this]
    exact matchAt_self _ _
  have hoptlen : (if t.getD (A.length + pn.length) ' ' == '?' then 1 else 0) =
      opt.length := by
    have hgd : t.getD (A.length + pn.length) ' ' =
        (opt ++ (": ".data ++ ty ++ [';'] ++ '\n' :: B)).getD 0 ' ' := by
      rw [show t = (A ++ pn) ++ (opt ++ (": ".data ++ ty ++ [';'] ++ '\n' :: B))
          from by rw [ht, hP]; simp [List.append_assoc]]
      rw [List.getD_append_right _ _ _ _ (by simp)]
      congr 1
      simp
    rcases hopt with rfl | rfl
    · rw [hgd]
      simp
    · rw [hgd]
      simp
  have hq2 : A.length + pn.length +
      (if t.getD (A.length + pn.length) ' ' == '?' then 1 else 0) =
      A.length + pn.length + opt.length := by rw [hoptlen]
  have hcolon : matchAt ": ".data t (A.length + pn.length + opt.length) = true := by
    rw [show t = (A ++ pn ++ opt) ++ (": ".data ++ (ty ++ [';'] ++ '\n' :: B))
        from by rw [ht, hP]; simp [List.append_assoc]]
    have hlen2 : A.length + pn.length + opt.length =
        (A ++ pn ++ opt).length + 0 := by
      simp only [List.length_append, Nat.add_zero]
    rw [hlen2, matchAt_append_right]
    exact matchAt_self _ _
  have hlastP : P.getD (P.length - 1) ' ' = ';' := by
    rw [hP, List.length_append, List.length_singleton, Nat.add_sub_cancel,
      List.getD_append_right _ _ _ _ (Nat.le_refl _), Nat.sub_self]
    rfl
  have hsemi : t.getD (lineEnd t A.length - 1) ' ' = ';' := by
    have hP1 : 1 ≤ P.length := by rw [hPlen]; omega
    rw [hle, htPz]
    rw [List.getD_append_right _ _ _ _ (by omega)]
    rw [show A.length + P.length - 1 - A.length = P.length - 1 from by omega]
    rw [List.getD_append _ _ _ _ (by omega)]
    exact hlastP
  have hmatch : propMatchAt pn t A.length = true := by
    rw [propMatchAt, hpn]
    simp only [hq2]
    rw [hcolon, hsemi]
    have hineq : A.length + pn.length + opt.length + 2 + 2 ≤
        lineEnd t A.length := by
      rw [hle, hPlen]
      have : 0 < ty.length := List.length_pos.mpr htyne
      omega
    simp [hineq]
  have hfound : findIdx (propMatchAt pn t) 0 (t.length + 1) =
      some A.length := findIdx_first hmatch (by omega) hmin
  -- the capture groups
  have hg0 : (t.drop A.length).take (lineEnd t A.length - A.length) = P := by
    rw [hle, htPz, List.drop_left,
      show A.length + P.length - A.length = P.length from by omega]
    rw [show (P ++ '\n' :: B : Str) = P ++ '\n' :: B from rfl]
    exact List.take_left _ _
  have hg1 : (t.drop A.length).take
      (A.length + pn.length + opt.length + 2 - A.length) =
      pn ++ opt ++ ": ".data := by
    rw [htPz, List.drop_left,
      show A.length + pn.length + opt.length + 2 - A.length =
        (pn ++ opt ++ ": ".data).length from by
      simp only [List.length_append, show (": ".data : Str).length = 2 from rfl]
      omega]
    rw [show (P ++ '\n' :: B : Str) =
        (pn ++ opt ++ ": ".data) ++ (ty ++ [';'] ++ '\n' :: B) from by
      rw [hP]; simp [List.append_assoc]]
    exact List.take_left _ _
  have hg2 : (t.drop (A.length + pn.length + opt.length + 2)).take
      (lineEnd t A.length - 1 - (A.length + pn.length + opt.length + 2)) =
      ty := by
    rw [hle]
    rw [show t = (A ++ pn ++ opt ++ ": ".data) ++ (ty ++ ([';'] ++ '\n' :: B))
        from by rw [ht, hP]; simp [List.append_assoc]]
    rw [show A.length + pn.length + opt.length + 2 =
        (A ++ pn ++ opt ++ ": ".data).length from by
      simp only [List.length_append, show (": ".data : Str).length = 2 from rfl]]
    rw [List.drop_left]
    rw [show A.length + P.length - 1 -
        (A ++ pn ++ opt ++ ": ".data).length = ty.length from by
      simp only [List.length_append]
      rw [hPlen]
      simp only [show (": ".data : Str).length = 2 from rfl]
      omega]
    exact List.take_left _ _
  have hg3 : (t.drop (lineEnd t A.length - 1)).take 1 = [';'] := by
    rw [hle]
    rw [show t = (A ++ pn ++ opt ++ ": ".data ++ ty) ++ (';' :: '\n' :: B)
        from by rw [ht, hP]; simp [List.append_assoc]]
    rw [show A.length + P.length - 1 =
        (A ++ pn ++ opt ++ ": ".data ++ ty).length from by
      simp only [List.length_append]
      rw [hPlen]
      simp only [show (": ".data : Str).length = 2 from rfl]
      omega]
    rw [List.drop_left]
    rfl
  have hpm : propMatch pn t =
      some ⟨P, pn ++ opt ++ ": ".data, ty, [';']⟩ := by
    rw [propMatch, hfound]
    dsimp only
    rw [hq2, hg0, hg1, hg2, hg3]
  -- the global replacement over the segment decomposition
  have hmP : matchAt P t A.length = true := by
    rw [htPz]
    have := matchAt_append_right P A (P ++ '\n' :: B) 0
    rw [Nat.add_zero] at this
    rw [this]
    exact matchAt_self _ _
  have hfm : findMatch P t = some A.length :=
    findMatch_eq_some_of hmP hnoA
  have hP1 : P.length ≠ 0 := by rw [hPlen]; omega
  rw [rewriteProperty, hpm]
  dsimp only
  rw [hexp]
  rw [replaceAll_of_findMatch hP1 hfm]
  rw [show t.take A.length = A from by rw [htPz]; exact List.take_left _ _]
  rw [show t.drop (A.length + P.length) = '\n' :: B from by
    rw [show t = (A ++ P) ++ '\n' :: B from by rw [ht],
      show A.length + P.length = (A ++ P).length from by simp]
    exact List.drop_left _ _]
  rw [hsegs, replaceAll_joinSep hP1 hgood]

/-- Counterexample for C4 as stated: with profile property `owner`,
the unanchored pattern first matches inside the differently-named
property `coowner`, whose line is rewritten, while the line of the
property actually named `owner` is left untouched. -/
theorem c4_counterexample :
    rewriteProperty "owner".data "Book".data
        "coowner: Apple;\nowner: Pear;\n".data =
      some "coowner: Book;\nowner: Pear;\n".data
    ∧ includes "coowner: Book;\nowner: Pear;\n".data
        "owner: Pear;".data = true := by
  exact ⟨by decide, by decide⟩

/-- Witness for the amended C4: the matched text `owner?: Apple;`
occurs twice (interface and class attribute block); both occurrences
are rewritten, the marker `?` and the terminator `;` are preserved
exactly, and the three surrounding segments are unchanged. -/
theorem c4_rewrite_preserves_marker_and_terminator_witness :
    rewriteProperty "owner".data "Book".data
        ("head\n  ".data ++
          ("owner".data ++ ['?'] ++ ": ".data ++ "Apple".data ++ [';']) ++
          '\n' :: "mid\nowner?: Apple;\ntail".data) =
      some ("head\n  ".data ++
        ("owner".data ++ ['?'] ++ ": ".data ++ "Book".data ++ [';']) ++
        joinSep ("owner".data ++ ['?'] ++ ": ".data ++ "Book".data ++ [';'])
          ["\nmid\n".data, "\ntail".data]) := by
  exact c4_rewrite_preserves_marker_and_terminator "head\n  ".data
    "mid\nowner?: Apple;\ntail".data "owner".data ['?'] "Apple".data
    "Book".data ["\nmid\n".data, "\ntail".data] (Or.inr rfl)
    (by decide) (by decide) (by decide) (by decide) (by decide)
    (by decide) (by decide) (by decide)

/-! ### Schemas and their pre-processing (lines 393–426)

Schema documents are modelled with the fields the pre-processing
touches (`additionalProperties`, `properties`, `definitions`) plus an
opaque remainder; property objects with their `$ref`, `title`,
nested `properties` and an opaque remainder.  JS truthiness of the
`$ref` string value (`!property['$ref']`) is the non-emptiness of the
string when present. -/

inductive JVal where
  | jbool : Bool → JVal
  | jstr : Str → JVal
  | jnum : Int → JVal
  | jnull : JVal
deriving DecidableEq

inductive SProp : Type where
  | mk : Option Str → Option Str → Option (List (Str × SProp)) →
      List (Str × JVal) → SProp

def SProp.ref : SProp → Option Str
  | .mk r _ _ _ => r

def SProp.title : SProp → Option Str
  | .mk _ t _ _ => t

def SProp.children : SProp → Option (List (Str × SProp))
  | .mk _ _ c _ => c

/-- JS truthiness of a possibly-absent string field. -/
def truthyStr : Option Str → Bool
  | none => false
  | some s => !s.isEmpty

mutual

/-- Lines 416–426: delete `title` from every property whose `$ref` is
falsy, recursing into nested `properties` objects. -/
def removeTrivialTitles : List (Str × SProp) → List (Str × SProp)
  | [] => []
  | (k, p) :: rest => (k, processProp p) :: removeTrivialTitles rest

/-- One iteration of the `removeTrivialTitles` loop body on a single
property object. -/
def processProp : SProp → SProp
  | .mk ref title none extra =>
      .mk ref (if truthyStr ref then title else none) none extra
  | .mk ref title (some cs) extra =>
      .mk ref (if truthyStr ref then title else none)
        (some (removeTrivialTitles cs)) extra

end

structure Schema where
  additionalProperties : Option JVal
  properties : Option (List (Str × SProp))
  definitions : Option (List (Str × SProp))
  extra : List (Str × JVal)

structure Config where
  authMethod : Str
  noAdditionalProperties : Bool
  noTrivialTypes : Bool
  outputDir : Str
  modelDir : Str
  serviceDir : Str

/-- Lines 398–408, body of the per-entity loop. -/
def preProcessSchema (config : Config) (s : Schema) : Schema :=
  let s1 := if config.noAdditionalProperties then
      { s with additionalProperties := some (JVal.jbool false) } else s
  if config.noTrivialTypes then
    { s1 with properties := s1.properties.map removeTrivialTitles,
              definitions := s1.definitions.map removeTrivialTitles }
  else s1

structure AlpsProperty where
  name : Str
  rt : Option Str
deriving DecidableEq

structure AlpsDescriptor where
  id : Str
  descriptor : List AlpsProperty
deriving DecidableEq

structure AlpsDoc where
  descriptor : List AlpsDescriptor
deriving DecidableEq

structure Entity where
  repository : Str
  schema : Schema
  alps : AlpsDoc
  name : Str

/-- Lines 398–408: apply the configured normalisations to every
collected entity's schema. -/
def preProcessSchemas (entities : List Entity) (config : Config) :
    List Entity :=
  entities.map (fun e => { e with schema := preProcessSchema config e.schema })

/-- Claim C9: with both switches off, pre-processing changes
nothing. -/
theorem c9_preprocess_identity (am od md sd : Str) (es : List Entity) :
    preProcessSchemas es ⟨am, false, false, od, md, sd⟩ = es := by
  have hone : ∀ e : Entity,
      { e with schema :=
          preProcessSchema ⟨am, false, false, od, md, sd⟩ e.schema } = e := by
    intro e
    simp [preProcessSchema]
  unfold preProcessSchemas
  rw [List.map_congr_left (fun e _ => hone e)]
  simp

mutual

/-- Checker: no property without a truthy `$ref` carries a `title`,
recursively. -/
def cleanList : List (Str × SProp) → Bool
  | [] => true
  | (_, p) :: rest => cleanProp p && cleanList rest

def cleanProp : SProp → Bool
  | .mk ref title none _ => truthyStr ref || title.isNone
  | .mk ref title (some cs) _ => (truthyStr ref || title.isNone) && cleanList cs

end

mutual

/-- Checker: positionally, every property with a truthy `$ref` keeps
its `title`, recursively. -/
def retainsList : List (Str × SProp) → List (Str × SProp) → Bool
  | [], [] => true
  | (k, p) :: ps, (k2, q) :: qs =>
      k == k2 && retainsProp p q && retainsList ps qs
  | _, _ => false

def retainsProp : SProp → SProp → Bool
  | .mk ref title cs _, .mk _ title2 cs2 _ =>
      (if truthyStr ref then title2 == title else true) &&
        (match cs, cs2 with
         | none, none => true
         | some l, some l2 => retainsList l l2
         | _, _ => false)

end

mutual

theorem cleanList_rtt (l : List (Str × SProp)) :
    cleanList (removeTrivialTitles l) = true := by
  match l with
  | [] => rw [removeTrivialTitles, cleanList]
  | (k, p) :: rest =>
    rw [removeTrivialTitles, cleanList, cleanProp_pp p, cleanList_rtt rest]
    rfl

theorem cleanProp_pp (p : SProp) : cleanProp (processProp p) = true := by
  match p with
  | .mk ref title none extra =>
    rw [processProp, cleanProp]
    by_cases hr : truthyStr ref
    · simp [hr]
    · simp [hr]
  | .mk ref title (some cs) extra =>
    rw [processProp, cleanProp, cleanList_rtt cs]
    by_cases hr : truthyStr ref
    · simp [hr]
    · simp [hr]

end

mutual

theorem retainsList_rtt (l : List (Str × SProp)) :
    retainsList l (removeTrivialTitles l) = true := by
  match l with
  | [] => rw [removeTrivialTitles, retainsList]
  | (k, p) :: rest =>
    rw [removeTrivialTitles, retainsList, retainsProp_pp p,
      retainsList_rtt rest]
    simp

theorem retainsProp_pp (p : SProp) : retainsProp p (processProp p) = true := by
  match p with
  | .mk ref title none extra =>
    simp only [processProp, retainsProp]
    by_cases hr : truthyStr ref
    · simp [hr]
    · simp [hr]
  | .mk ref title (some cs) extra =>
    simp only [processProp, retainsProp]
    by_cases hr : truthyStr ref
    · simp [hr, retainsList_rtt cs]
    · simp [hr, retainsList_rtt cs]

end

def cleanSchema (s : Schema) : Bool :=
  cleanList (s.properties.getD []) && cleanList (s.definitions.getD [])

def retainsSchema (s s2 : Schema) : Bool :=
  (match s.properties, s2.properties with
   | none, none => true
   | some l, some l2 => retainsList l l2
   | _, _ => false) &&
  (match s.definitions, s2.definitions with
   | none, none => true
   | some l, some l2 => retainsList l l2
   | _, _ => false)

/-- Claim C7 (amended): after normalization with trivial-alias
suppression enabled, every schema property (direct properties,
definitions, and nested property sets, recursively) whose `$ref` is
absent or falsy (empty) carries no `title` hint, and every property
with a truthy (non-empty) `$ref` retains its hint.  (The original
claim fails for a present-but-empty `$ref`: see the
counterexample.) -/
theorem c7_trivial_title_suppression (am : Str) (ap : Bool)
    (od md sd : Str) (es : List Entity) :
    (preProcessSchemas es ⟨am, ap, true, od, md, sd⟩).all
        (fun e => cleanSchema e.schema) = true
    ∧ es.all (fun e => retainsSchema e.schema
        (preProcessSchema ⟨am, ap, true, od, md, sd⟩ e.schema)) = true := by
  have hclean : ∀ s : Schema,
      cleanSchema (preProcessSchema ⟨am, ap, true, od, md, sd⟩ s) = true := by
    intro s
    rw [preProcessSchema]
    rcases s with ⟨sap, props, defs, ex⟩
    by_cases hap : ap
    · simp only [hap, if_true, cleanSchema]
      match props, defs with
      | none, none => rfl
      | none, some l => simp [cleanList_rtt l, cleanList]
      | some l, none => simp [cleanList_rtt l, cleanList]
      | some l, some l2 => simp [cleanList_rtt l, cleanList_rtt l2]
    · simp only [hap, if_false, cleanSchema]
      match props, defs with
      | none, none => rfl
      | none, some l => simp [cleanList_rtt l, cleanList]
      | some l, none => simp [cleanList_rtt l, cleanList]
      | some l, some l2 => simp [cleanList_rtt l, cleanList_rtt l2]
  have hret : ∀ s : Schema,
      retainsSchema s (preProcessSchema ⟨am, ap, true, od, md, sd⟩ s) = true := by
    intro s
    rw [preProcessSchema]
    rcases s with ⟨sap, props, defs, ex⟩
    by_cases hap : ap
    · simp only [hap, if_true, retainsSchema]
      match props, defs with
      | none, none => rfl
      | none, some l => simp [retainsList_rtt l]
      | some l, none => simp [retainsList_rtt l]
      | some l, some l2 => simp [retainsList_rtt l, retainsList_rtt l2]
    · simp only [hap, if_false, retainsSchema]
      match props, defs with
      | none, none => rfl
      | none, some l => simp [retainsList_rtt l]
      | some l, none => simp [retainsList_rtt l]
      | some l, some l2 => simp [retainsList_rtt l, retainsList_rtt l2]
  constructor
  · rw [List.all_eq_true]
    intro e he
    obtain ⟨e0, _, rfl⟩ := List.mem_map.mp he
    exact hclean e0.schema
  · rw [List.all_eq_true]
    intro e _
    exact hret e.schema

/-- Counterexample for C7 as stated: a property whose `$ref` is
present but empty (`\"\"`, falsy in JS) loses its `title` even though
it has a `$ref`. -/
theorem c7_counterexample :
    (SProp.mk (some []) (some "T".data) none []).ref.isSome = true
    ∧ ((preProcessSchema ⟨"NONE".data, false, true, [], [], []⟩
          ⟨none, some [("x".data, SProp.mk (some []) (some "T".data) none [])],
            none, []⟩).properties.map
        (fun l => l.map (fun kp => (kp.1, kp.2.ref, kp.2.title)))) =
      some [("x".data, some [], none)] := by
  constructor
  · rfl
  · simp [preProcessSchema, removeTrivialTitles, processProp, truthyStr,
      SProp.ref, SProp.title]

/-! ### The reference resolver over an entity (lines 438–476) and the
run-level outcome model

`process.exit(n)` is modelled as the outcome `exited n`; an uncaught
exception (a `TypeError` from indexing a `null` match result) crashes
the run without a category-specific exit code, modelled as `thrown` /
`crashed`. -/

inductive RunErr where
  | exitCode : Nat → RunErr
  | thrown : RunErr
deriving DecidableEq

/-- Whether an error carries a process-exit code (as opposed to an
uncaught exception). -/
def RunErr.isExit : RunErr → Bool
  | .exitCode _ => true
  | .thrown => false

instance : DecidableEq (Except RunErr Str) := fun a b =>
  match a, b with
  | .ok x, .ok y =>
    if h : x = y then isTrue (by rw [h])
    else isFalse (by intro he; cases he; exact h rfl)
  | .error x, .error y =>
    if h : x = y then isTrue (by rw [h])
    else isFalse (by intro he; cases he; exact h rfl)
  | .ok _, .error _ => isFalse (by intro he; cases he)
  | .error _, .ok _ => isFalse (by intro he; cases he)

/-- Loop body of `postProcessTypeScriptFiles` for one profile property
(lines 440–471): skip properties without `rt`; a failing `rt` pattern
match or property lookup throws. -/
def resolveStep (isPlural : Str → Bool) (p : AlpsProperty) (t : Str) :
    Except RunErr Str :=
  match p.rt with
  | none => .ok t
  | some rtv =>
    match rtMatchData rtv with
    | none => .error .thrown
    | some fw =>
      let referencedEntity := upperCamelCase fw.1
      let newType := if isPlural p.name then referencedEntity ++ "[]".data
        else referencedEntity
      match rewriteProperty p.name newType t with
      | none => .error .thrown
      | some typeReplaced => .ok (addImport referencedEntity typeReplaced)

def postProcessLoop (isPlural : Str → Bool) :
    List AlpsProperty → Str → Except RunErr Str
  | [], t => .ok t
  | p :: rest, t =>
    match resolveStep isPlural p t with
    | .error e => .error e
    | .ok t2 => postProcessLoop isPlural rest t2

/-- Lines 438–476.  The `entities` and `modelDir` parameters are
unused by the source body; `isPlural` abstracts the external
`pluralize.isPlural`.  Accessing `descriptor[0]` of an empty
descriptor list throws. -/
def postProcessTypeScriptFiles (isPlural : Str → Bool)
    (entities : List Entity) (entity : Entity) (renderedClass : Str)
    (modelDir : Str) : Except RunErr Str :=
  match entity.alps.descriptor.head? with
  | none => .error .thrown
  | some d0 => postProcessLoop isPlural d0.descriptor renderedClass

theorem resolveStep_error_thrown {ipl : Str → Bool} {p : AlpsProperty}
    {t : Str} {e : RunErr} (h : resolveStep ipl p t = .error e) :
    e = .thrown := by
  rw [resolveStep] at h
  match hrt : p.rt with
  | none => rw [hrt] at h; simp at h
  | some rtv =>
    rw [hrt] at h
    dsimp only at h
    match hmd : rtMatchData rtv with
    | none =>
      rw [hmd] at h
      simp at h
      exact h.symm
    | some fw =>
      rw [hmd] at h
      dsimp only at h
      match hrw : rewriteProperty p.name
          (if ipl p.name = true then upperCamelCase fw.1 ++ "[]".data
            else upperCamelCase fw.1) t with
      | none =>
        rw [hrw] at h
        simp at h
        exact h.symm
      | some t2 => rw [hrw] at h; simp at h

theorem postProcessLoop_bad_rt {ipl : Str → Bool} :
    ∀ (ps : List AlpsProperty) (t : Str),
      (∃ p ∈ ps, ∃ r, p.rt = some r ∧ rtMatchData r = none) →
      postProcessLoop ipl ps t = .error .thrown := by
  intro ps
  induction ps with
  | nil => intro t h; simp at h
  | cons q rest ih =>
    intro t h
    obtain ⟨p, hp, r, hrt, hrm⟩ := h
    rcases List.mem_cons.mp hp with rfl | hp
    · rw [postProcessLoop]
      have hq : resolveStep ipl p t = .error .thrown := by
        rw [resolveStep, hrt]
        dsimp only
        rw [hrm]
      rw [hq]
    · rw [postProcessLoop]
      match hres : resolveStep ipl q t with
      | .error e => rw [resolveStep_error_thrown hres]
      | .ok t2 => exact ih t2 ⟨p, hp, r, hrt, hrm⟩

theorem postProcessLoop_append {ipl : Str → Bool} :
    ∀ (ps qs : List AlpsProperty) (t : Str),
      postProcessLoop ipl (ps ++ qs) t =
        match postProcessLoop ipl ps t with
        | .error e => .error e
        | .ok t2 => postProcessLoop ipl qs t2 := by
  intro ps
  induction ps with
  | nil => intro qs t; rfl
  | cons p rest ih =>
    intro qs t
    rw [List.cons_append]
    match hres : resolveStep ipl p t with
    | .error e => simp only [postProcessLoop, hres]
    | .ok t2 =>
      simp only [postProcessLoop, hres]
      exact ih qs t2

/-- A property whose `rt` pattern matches but whose own property line
cannot be located in the text reached when it is processed makes the
loop abort with the uncaught exception. -/
theorem postProcessLoop_bad_rewrite {ipl : Str → Bool}
    (pre post : List AlpsProperty) (p : AlpsProperty) (t t2 : Str)
    (r : Str) (fw : Str × Str)
    (hpre : postProcessLoop ipl pre t = .ok t2)
    (hrt : p.rt = some r)
    (hmd : rtMatchData r = some fw)
    (hrw : rewriteProperty p.name
        (if ipl p.name = true then upperCamelCase fw.1 ++ "[]".data
          else upperCamelCase fw.1) t2 = none) :
    postProcessLoop ipl (pre ++ p :: post) t = .error .thrown := by
  rw [postProcessLoop_append, hpre]
  dsimp only
  rw [postProcessLoop]
  have hstep : resolveStep ipl p t2 = .error .thrown := by
    rw [resolveStep, hrt]
    dsimp only
    rw [hmd]
    dsimp only
    rw [hrw]
  rw [hstep]

/-- Claim C5 (amended): a profile entry whose `rt` target fails the
hash-separator pattern, and likewise one whose property line cannot be
located in the text reached when the entry is processed, aborts the
run — it is never silently skipped — but via an uncaught `TypeError`
(a generic crash), not an error carrying a distinct
resolution-category process-exit code.  (The original claim's distinct
exit signal fails: see the counterexample.) -/
theorem c5_resolution_failure_aborts :
    (∀ (ipl : Str → Bool) (entities : List Entity) (entity : Entity)
        (t md : Str),
      (∃ d0, entity.alps.descriptor.head? = some d0 ∧
        ∃ p ∈ d0.descriptor, ∃ r, p.rt = some r ∧ rtMatchData r = none) →
      postProcessTypeScriptFiles ipl entities entity t md = .error .thrown)
    ∧ (∀ (ipl : Str → Bool) (entities : List Entity) (entity : Entity)
        (t md t2 : Str) (d0 : AlpsDescriptor)
        (pre post : List AlpsProperty) (p : AlpsProperty) (r : Str)
        (fw : Str × Str),
      entity.alps.descriptor.head? = some d0 →
      d0.descriptor = pre ++ p :: post →
      postProcessLoop ipl pre t = .ok t2 →
      p.rt = some r →
      rtMatchData r = some fw →
      rewriteProperty p.name
          (if ipl p.name = true then upperCamelCase fw.1 ++ "[]".data
            else upperCamelCase fw.1) t2 = none →
      postProcessTypeScriptFiles ipl entities entity t md = .error .thrown)
    ∧ RunErr.thrown.isExit = false := by
  refine ⟨?_, ?_, rfl⟩
  · intro ipl entities entity t md h
    obtain ⟨d0, hd0, hbad⟩ := h
    rw [postProcessTypeScriptFiles, hd0]
    exact postProcessLoop_bad_rt d0.descriptor t hbad
  · intro ipl entities entity t md t2 d0 pre post p r fw hd0 hdesc hpre
      hrt hmd hrw
    rw [postProcessTypeScriptFiles, hd0]
    dsimp only
    rw [hdesc]
    exact postProcessLoop_bad_rewrite pre post p t t2 r fw hpre hrt hmd hrw

/-- Counterexample for C5 as stated: an entity whose single profile
property has a non-matching `rt`; the run is aborted by an uncaught
exception, which carries no process-exit code at all (resolution
errors have no distinct exit signal in the code; exit codes 3–7 are
used only before generation). -/
theorem c5_counterexample :
    postProcessTypeScriptFiles (fun _ => false) []
        ⟨"books".data, ⟨none, none, none, []⟩,
          ⟨[⟨"book-representation".data,
             [⟨"owner".data, some "garbage".data⟩]⟩]⟩, "book".data⟩
        "class Book \x7b\n\x7d\n".data "model".data = .error .thrown
    ∧ RunErr.thrown.isExit = false := by
  exact ⟨by decide, rfl⟩

/-- Witness for the amended C5: one entity whose `rt` fails the
pattern and one whose well-formed `rt` points at a property (`owner`)
absent from the rendered class; both abort with the uncaught
exception. -/
theorem c5_resolution_failure_aborts_witness :
    postProcessTypeScriptFiles (fun _ => false) []
        ⟨"books".data, ⟨none, none, none, []⟩,
          ⟨[⟨"book-representation".data,
             [⟨"owner".data, some "nodash".data⟩]⟩]⟩, "book".data⟩
        "class Book \x7b\n\x7d\n".data "model".data = .error .thrown
    ∧ postProcessTypeScriptFiles (fun _ => false) []
        ⟨"books".data, ⟨none, none, none, []⟩,
          ⟨[⟨"book-representation".data,
             [⟨"owner".data, some "#book-".data⟩]⟩]⟩, "book".data⟩
        "class Book \x7b\n\x7d\n".data "model".data = .error .thrown :=
  ⟨c5_resolution_failure_aborts.1 (fun _ => false) []
    ⟨"books".data, ⟨none, none, none, []⟩,
      ⟨[⟨"book-representation".data,
         [⟨"owner".data, some "nodash".data⟩]⟩]⟩, "book".data⟩
    "class Book \x7b\n\x7d\n".data "model".data
    ⟨⟨"book-representation".data, [⟨"owner".data, some "nodash".data⟩]⟩,
      by decide, ⟨"owner".data, some "nodash".data⟩, by decide,
      "nodash".data, by decide, by decide⟩,
   c5_resolution_failure_aborts.2.1 (fun _ => false) []
    ⟨"books".data, ⟨none, none, none, []⟩,
      ⟨[⟨"book-representation".data,
         [⟨"owner".data, some "#book-".data⟩]⟩]⟩, "book".data⟩
    "class Book \x7b\n\x7d\n".data "model".data
    "class Book \x7b\n\x7d\n".data
    ⟨"book-representation".data, [⟨"owner".data, some "#book-".data⟩]⟩
    [] [] ⟨"owner".data, some "#book-".data⟩ "#book-".data
    ("#book-".data, "book".data)
    (by decide) rfl rfl (by decide) (by decide) (by decide)⟩

/-! ### Discovery, collection and generation (lines 192–229, 320–390,
486–577)

Network fetches are modelled by a `ServerModel` of responses; the
discovery response is modelled by the presence of its `_links`
collection and that collection's keys.  File-system effects are
recorded as structured operations (the string paths built by the
source are pairwise distinct by construction). -/

inductive FetchResult (α : Type) where
  | ok : α → FetchResult α
  | fail : FetchResult α

/-- The discovery response body: `none` when `_links` is absent,
otherwise the keys of `_links`. -/
structure DiscoveryDoc where
  links : Option (List Str)

/-- Lines 585–590: remove the first occurrence of an element. -/
def removeElementFromArray (array : List Str) (element : Str) : List Str :=
  array.erase element

/-- Lines 320–343: list the repository keys, `exit(4)` when `_links`
is missing, `exit(3)` when the request fails. -/
def collectRepositories (resp : FetchResult DiscoveryDoc) :
    Except Nat (List Str) :=
  match resp with
  | .fail => .error 3
  | .ok d =>
    match d.links with
    | none => .error 4
    | some keys => .ok (removeElementFromArray keys "self".data)

structure ServerModel where
  authOk : Bool
  profile : FetchResult DiscoveryDoc
  schemaOf : Str → FetchResult Schema
  alpsOf : Str → FetchResult AlpsDoc

/-- Lines 350–366: fetch each schema in order, `exit(6)` on the first
failure. -/
def collectSchemas (server : ServerModel) :
    List Str → Except Nat (List (Str × Schema))
  | [] => .ok []
  | k :: rest =>
    match server.schemaOf k with
    | .fail => .error 6
    | .ok s =>
      match collectSchemas server rest with
      | .error c => .error c
      | .ok xs => .ok ((k, s) :: xs)

/-- The capture group of `REGEXP_OWN_ENTITY_NAME` (a `\w+` run
followed by a dash), leftmost match. -/
def ownNameCapture (t : Str) : Option Str :=
  match findIdx (fun i => decide (1 ≤ wordRun t i) &&
      (t.getD (i + wordRun t i) ' ' == '-')) 0 (t.length + 1) with
  | none => none
  | some i => some ((t.drop i).take (wordRun t i))

/-- Lines 373–390: fetch each ALPS profile in order and derive the
entity name from the first descriptor's id; a fetch failure, a missing
first descriptor or a failing name pattern all reach the attached
`catch` and `exit(7)`. -/
def collectAlpsAndPopulateNames (server : ServerModel) :
    List (Str × Schema) → Except Nat (List Entity)
  | [] => .ok []
  | (k, s) :: rest =>
    match server.alpsOf k with
    | .fail => .error 7
    | .ok a =>
      match a.descriptor.head? with
      | none => .error 7
      | some d0 =>
        match ownNameCapture d0.id with
        | none => .error 7
        | some nm =>
          match collectAlpsAndPopulateNames server rest with
          | .error c => .error c
          | .ok es => .ok (⟨k, s, a, nm⟩ :: es)

inductive FsOp where
  | mkdirModelDir : FsOp
  | mkdirServiceDir : FsOp
  | emptyModelDir : FsOp
  | emptyServiceDir : FsOp
  | writeModelFile : Str → Str → FsOp
  | writeServiceFile : Str → Str → FsOp
  | writeModelIndex : Str → FsOp
  | writeServiceIndex : Str → FsOp
deriving DecidableEq

inductive Outcome where
  | completed : Outcome
  | exited : Nat → Outcome
  | crashed : Outcome
deriving DecidableEq

structure RunResult where
  fsOps : List FsOp
  outcome : Outcome
deriving DecidableEq

structure ClassTemplateData where
  interfaceDefinition : Str
  interfaceName : Str
  className : Str
  classAttributes : Str

structure ServiceTemplateData where
  className : Str
  classNameKebab : Str
  modelDir : Str

structure ModelEntry where
  modelClass : Str
  modelDir : Str
  modelFile : Str
deriving DecidableEq

structure ServiceEntry where
  modelClass : Str
  serviceDir : Str
  modelFile : Str
deriving DecidableEq

/-- The external collaborators: `json-schema-to-typescript`'s
`compile`, the four mustache template renderings, and
`pluralize.isPlural`. -/
structure Externals where
  compile : Schema → Str → Str
  renderClass : ClassTemplateData → Str
  renderService : ServiceTemplateData → Str
  renderModels : List ModelEntry → Str
  renderServices : List ServiceEntry → Str
  isPlural : Str → Bool

/-- A full line of the form `export interface <w> \x7b` (the matched
line of `REGEXP_TYPESCRIPT_INTERFACE_NAME`, whose anchors `^`/`$` with
the `m` flag make it line-exact), returning the `\w+` group. -/
def interfaceLineName (l : Str) : Option Str :=
  let hd := "export interface ".data
  let tl := " \x7b".data
  if decide (hd.length + 1 + tl.length ≤ l.length) &&
      matchAt hd l 0 && matchAt tl l (l.length - tl.length) &&
      ((l.drop hd.length).take (l.length - tl.length - hd.length)).all wordC
  then some ((l.drop hd.length).take (l.length - tl.length - hd.length))
  else none

/-- Lines 505–507: `'$1I$2$3'` — insert `I` into the first matching
interface line. -/
def renameLines : List Str → List Str
  | [] => []
  | l :: rest =>
    match interfaceLineName l with
    | some w => ("export interface I".data ++ w ++ " \x7b".data) :: rest
    | none => l :: renameLines rest

def renameInterface (t : Str) : Str :=
  List.intercalate ['\n'] (renameLines (t.splitOn '\n'))

/-- Line 510: the `\w+` group of the first matching interface line
(`matches[2]`; `none` models the `null` match whose indexing
throws). -/
def findInterfaceName (t : Str) : Option Str :=
  (t.splitOn '\n').findSome? interfaceLineName

/-- Whether a line ends in a closing brace (the `}$` part of
`REGEXP_TYPESCRIPT_INTERFACE_ATTRIBUTES`). -/
def lineEndsBrace (l : Str) : Bool :=
  decide (1 ≤ l.length) && (l.getD (l.length - 1) ' ' == '\x7d')

/-- The lazy `((.|\n)*?)` body: the lines up to (and excluding) the
first line-final closing brace. -/
def takeUpToBrace : List Str → Option Str
  | [] => none
  | l :: rest =>
    if lineEndsBrace l then some l.dropLast
    else
      match takeUpToBrace rest with
      | none => none
      | some x => some (l ++ '\n' :: x)

/-- Lines 517–519: group 1 of
`REGEXP_TYPESCRIPT_INTERFACE_ATTRIBUTES` — the member block between
the first interface-header line (with a following line-final `}`) and
that brace. -/
def findAttrs : List Str → Option Str
  | [] => none
  | l :: rest =>
    match interfaceLineName l with
    | some _ =>
      match takeUpToBrace rest with
      | some x => some x
      | none => findAttrs rest
    | none => findAttrs rest

structure GenState where
  files : List FsOp
  models : List ModelEntry
  services : List ServiceEntry
deriving DecidableEq

/-- The per-entity loop of `generateTypeScriptFromSchema`
(lines 496–568); on an exception the files written so far are kept and
the error reported. -/
def genLoop (ext : Externals) (config : Config) (all : List Entity) :
    List Entity → GenState → GenState × Option RunErr
  | [], st => (st, none)
  | e :: rest, st =>
    let interfaceDefinition := renameInterface (ext.compile e.schema e.name)
    match findInterfaceName interfaceDefinition with
    | none => (st, some .thrown)
    | some interfaceName =>
      let className := interfaceName.drop 1
      let classNameKebab := kebabCase className
      match findAttrs (interfaceDefinition.splitOn '\n') with
      | none => (st, some .thrown)
      | some classAttributes =>
        match postProcessTypeScriptFiles ext.isPlural all e
            (ext.renderClass ⟨interfaceDefinition, interfaceName, className,
              classAttributes⟩) config.modelDir with
        | .error er => (st, some er)
        | .ok renderedClass =>
          let renderedService := ext.renderService
            ⟨className, classNameKebab, config.modelDir⟩
          genLoop ext config all rest
            { files := st.files ++
                [.writeModelFile classNameKebab renderedClass,
                 .writeServiceFile classNameKebab renderedService],
              models := st.models ++
                [⟨interfaceName, config.modelDir, classNameKebab⟩,
                 ⟨className, config.modelDir, classNameKebab⟩],
              services := st.services ++
                [⟨className, config.serviceDir, classNameKebab⟩] }

/-- Lines 486–577: the loop over all entities followed by the two
aggregator renders and writes. -/
def generateTypeScriptFromSchema (ext : Externals) (config : Config)
    (entities : List Entity) : GenState × Option RunErr :=
  match genLoop ext config entities entities ⟨[], [], []⟩ with
  | (st, some er) => (st, some er)
  | (st, none) =>
    ({ st with files := st.files ++
        [.writeModelIndex (ext.renderModels st.models),
         .writeServiceIndex (ext.renderServices st.services)] }, none)

/-- Lines 192–229: the whole run. -/
def doGenerate (ext : Externals) (options : Config) (server : ServerModel) :
    RunResult :=
  if options.authMethod ≠ "NONE".data ∧ server.authOk = false then
    ⟨[], .exited 5⟩
  else
    match collectRepositories server.profile with
    | .error c => ⟨[], .exited c⟩
    | .ok keys =>
      match collectSchemas server keys with
      | .error c => ⟨[], .exited c⟩
      | .ok pairs =>
        match collectAlpsAndPopulateNames server pairs with
        | .error c => ⟨[], .exited c⟩
        | .ok entities =>
          let entities2 := preProcessSchemas entities options
          let dirOps : List FsOp := [.mkdirModelDir, .mkdirServiceDir,
            .emptyModelDir, .emptyServiceDir]
          match generateTypeScriptFromSchema ext options entities2 with
          | (st, some (.exitCode c)) => ⟨dirOps ++ st.files, .exited c⟩
          | (st, some .thrown) => ⟨dirOps ++ st.files, .crashed⟩
          | (st, none) => ⟨dirOps ++ st.files, .completed⟩

/-- Claim C6: a discovery response without `_links` terminates the run
with exit status 4 before any file-system operation; a failing
discovery request terminates with the distinct exit status 3, likewise
before any file-system operation. -/
theorem c6_discovery_failure_exits (ext : Externals) (cfg : Config)
    (server : ServerModel) (d : DiscoveryDoc)
    (hauth : cfg.authMethod = "NONE".data ∨ server.authOk = true) :
    (server.profile = .ok d → d.links = none →
      doGenerate ext cfg server = ⟨[], .exited 4⟩)
    ∧ (server.profile = .fail → doGenerate ext cfg server = ⟨[], .exited 3⟩)
    ∧ (4 : Nat) ≠ 3 := by
  have hiff : ¬(cfg.authMethod ≠ "NONE".data ∧ server.authOk = false) := by
    rcases hauth with h | h
    · intro hc; exact hc.1 h
    · intro hc; rw [h] at hc; exact absurd hc.2 (by simp)
  refine ⟨?_, ?_, by omega⟩
  · intro hp hl
    rw [doGenerate, if_neg hiff, hp]
    dsimp only [collectRepositories]
    rw [hl]
  · intro hp
    rw [doGenerate, if_neg hiff, hp]
    rfl

/-- Witness for C6: a server whose discovery response parses but has
no `_links` collection. -/
theorem c6_discovery_failure_exits_witness :
    doGenerate
        ⟨fun _ _ => [], fun _ => [], fun _ => [], fun _ => [], fun _ => [],
          fun _ => false⟩
        ⟨"NONE".data, false, false, "out".data, "model".data, "service".data⟩
        ⟨true, .ok ⟨none⟩, fun _ => .fail, fun _ => .fail⟩ =
      ⟨[], .exited 4⟩
    ∧ (4 : Nat) ≠ 3 :=
  ⟨(c6_discovery_failure_exits
      ⟨fun _ _ => [], fun _ => [], fun _ => [], fun _ => [], fun _ => [],
        fun _ => false⟩
      ⟨"NONE".data, false, false, "out".data, "model".data, "service".data⟩
      ⟨true, .ok ⟨none⟩, fun _ => .fail, fun _ => .fail⟩
      ⟨none⟩ (Or.inl rfl)).1 rfl rfl,
    by omega⟩

/-- Aggregator writes among the file-system operations. -/
def FsOp.isAggregatorWrite : FsOp → Bool
  | .writeModelIndex _ => true
  | .writeServiceIndex _ => true
  | _ => false

theorem genLoop_ok_counts (ext : Externals) (cfg : Config) (all : List Entity) :
    ∀ (es : List Entity) (st0 st : GenState),
      genLoop ext cfg all es st0 = (st, none) →
      st.models.length = st0.models.length + 2 * es.length
      ∧ st.services.length = st0.services.length + es.length
      ∧ st.files.filter FsOp.isAggregatorWrite =
          st0.files.filter FsOp.isAggregatorWrite := by
  intro es
  induction es with
  | nil =>
    intro st0 st h
    rw [genLoop] at h
    injection h with h1 _
    rw [← h1]
    simp
  | cons e rest ih =>
    intro st0 st h
    rw [genLoop] at h
    dsimp only at h
    split at h
    · simp at h
    · split at h
      · simp at h
      · split at h
        · simp at h
        · obtain ⟨h1, h2, h3⟩ := ih _ _ h
          refine ⟨?_, ?_, ?_⟩
          · rw [h1]; simp [List.length_append]; omega
          · rw [h2]; simp [List.length_append]; omega
          · rw [h3, List.filter_append]
            simp [FsOp.isAggregatorWrite]

/-- Claim C8: a successful generation run over `n` entity descriptors
produces exactly `2n` model aggregator entries (interface and class
name per entity), exactly `n` service aggregator entries, and exactly
two aggregator file writes (the model index then the service
index). -/
theorem c8_aggregator_counts (ext : Externals) (cfg : Config)
    (es : List Entity) (st : GenState)
    (h : generateTypeScriptFromSchema ext cfg es = (st, none)) :
    st.models.length = 2 * es.length
    ∧ st.services.length = es.length
    ∧ ∃ mi si, st.files.filter FsOp.isAggregatorWrite =
        [.writeModelIndex mi, .writeServiceIndex si] := by
  rw [generateTypeScriptFromSchema] at h
  match hg : genLoop ext cfg es es ⟨[], [], []⟩ with
  | (st1, some er) => rw [hg] at h; simp at h
  | (st1, none) =>
    rw [hg] at h
    dsimp only at h
    obtain ⟨h1, h2, h3⟩ := genLoop_ok_counts ext cfg es es ⟨[], [], []⟩ st1 hg
    injection h with hst _
    rw [← hst]
    refine ⟨by simpa using h1, by simpa using h2,
      ⟨ext.renderModels st1.models, ext.renderServices st1.services, ?_⟩⟩
    dsimp only
    rw [List.filter_append, h3]
    simp [FsOp.isAggregatorWrite]

/-- Concrete externals for exercising the generation loop: the
compiler emits a one-field interface named after the entity, the class
template echoes the interface text, the other templates are blank. -/
def c8Externals : Externals :=
  ⟨fun _ nm => "export interface ".data ++ upperCamelCase nm ++
      " \x7b\nx: string;\n\x7d\n".data,
   fun d => d.interfaceDefinition, fun _ => [], fun _ => [], fun _ => [],
   fun _ => false⟩

def c8Config : Config :=
  ⟨"NONE".data, false, false, "out".data, "model".data, "service".data⟩

/-- Three cross-reference-free entities, as in the spec's aggregator
scenario. -/
def c8Entities : List Entity :=
  [⟨"books".data, ⟨none, none, none, []⟩,
    ⟨[⟨"book-representation".data, []⟩]⟩, "book".data⟩,
   ⟨"authors".data, ⟨none, none, none, []⟩,
    ⟨[⟨"author-representation".data, []⟩]⟩, "author".data⟩,
   ⟨"publishers".data, ⟨none, none, none, []⟩,
    ⟨[⟨"publisher-representation".data, []⟩]⟩, "publisher".data⟩]

/-- Witness for C8: with three entities the run succeeds, the model
aggregator lists six entries, the service aggregator three, and
exactly two aggregator files are written. -/
theorem c8_aggregator_counts_witness :
    (generateTypeScriptFromSchema c8Externals c8Config c8Entities).2 = none
    ∧ (generateTypeScriptFromSchema c8Externals c8Config
        c8Entities).1.models.length = 2 * c8Entities.length
    ∧ (generateTypeScriptFromSchema c8Externals c8Config
        c8Entities).1.services.length = c8Entities.length
    ∧ ∃ mi si, (generateTypeScriptFromSchema c8Externals c8Config
        c8Entities).1.files.filter FsOp.isAggregatorWrite =
        [.writeModelIndex mi, .writeServiceIndex si] := by
  have h2 : (generateTypeScriptFromSchema c8Externals c8Config
      c8Entities).2 = none := by decide
  have h : generateTypeScriptFromSchema c8Externals c8Config c8Entities =
      ((generateTypeScriptFromSchema c8Externals c8Config c8Entities).1,
        none) := by
    rw [← h2]
  obtain ⟨ha, hb, hc⟩ := c8_aggregator_counts c8Externals c8Config
    c8Entities _ h
  exact ⟨h2, ha, hb, hc⟩

end NgSDR
